import Mathlib

/-!
cmarkh/scheduler: the time resolver and the arming logic of the execution engine.

A shallow embedding of `scheduler.go`.

Time.

A `Time` is an instant, counted in nanoseconds from 1970-01-01 00:00:00 UTC.  The host's
local zone `time.Local` is a parameter `zone : Zone`, Go's `Location.lookup`; the clock
fields of an instant (`Weekday`, `Hour`, ...) are read in that zone, and `Date` follows
`time.Date` step by step: the carries of `norm`, the 64-bit wrap of the seconds, and the
two look-ups by which the zone offset is found.  `time.Duration` is an `int64` count of
nanoseconds; `Time.Sub` saturates exactly as Go's `Time.Sub` does.

The clock.

`time.Now()` is read several times by the source.  Each function that reads it takes the
readings it makes as an argument: `ParseTimes` and `Run` take `clock : Nat → Time`, the
`k`-th reading made by the call, and one reconciliation pass of `RunHandleSleeps` takes the
single reading `now` it makes.

Effects.

`schedule.wg.Add(1)` and `time.AfterFunc(d, func() { schedule.execute(f, t) })` are recorded,
in program order, in a trace of `Event`s.  The calls one invocation makes (`fmt.Printf`,
`errs.Log`, `mail.Send`, `schedule.wg.Done()`) are recorded in a trace of `Effect`s.
-/

namespace Scheduler

/-! ## Instants and durations -/

/-- Instant: nanoseconds since 1970-01-01 00:00:00 UTC. -/
abbrev Time := Int

/-- Go `time.Duration`: nanoseconds, an `int64`. -/
abbrev Duration := Int

/-- Go `time.Second`. -/
def Second : Duration := 1000000000

/-- Go `time.Minute`. -/
def Minute : Duration := 60 * Second

/-- Largest `time.Duration` (`1<<63 - 1`). -/
def maxDuration : Duration := 9223372036854775807

/-- Smallest `time.Duration` (`-1 << 63`). -/
def minDuration : Duration := -9223372036854775808

/-- One period of a zone, as Go `Location.lookup` reports it: the offset in seconds east of
UTC and the UTC seconds from `start` (included) to `stop` (Go `end`, excluded) during which
it is in force. -/
structure ZoneSpan where
  offset : Int
  start : Int
  stop : Int
deriving DecidableEq, Repr

/-- The host's local zone `time.Local`: Go `Location.lookup`, the period in force at a UTC
second. -/
structure Zone where
  lookup : Int → ZoneSpan

/-- The value a Go `int64` (and `int` on a 64-bit host) holds after an operation whose exact
result is `x`: `x` wrapped into the range from `-1 << 63` to `1<<63 - 1`. -/
def wrapInt64 (x : Int) : Int :=
  (x + 9223372036854775808) % 18446744073709551616 - 9223372036854775808

/-- Go `norm(hi, lo, base)` of package `time`: carries `lo` into `hi` so that `lo` ends in
`0 .. base-1`.  Both divisions have a dividend that is not negative. -/
def norm (hi lo base : Int) : Int × Int :=
  let a : Int × Int :=
    if lo < 0 then
      (wrapInt64 (hi - (wrapInt64 (wrapInt64 (-lo) - 1) / base + 1)),
        wrapInt64 (lo + wrapInt64 ((wrapInt64 (wrapInt64 (-lo) - 1) / base + 1) * base)))
    else (hi, lo)
  if a.2 ≥ base then
    (wrapInt64 (a.1 + a.2 / base), wrapInt64 (a.2 - wrapInt64 (a.2 / base * base)))
  else a

/-- Go `Time.Unix()`: whole seconds since the epoch (floor). -/
def Time.unixSec (t : Time) : Int := t / 1000000000

/-- Seconds on the local wall clock: Go `Time.abs` counted from 1970, the UTC second plus
the offset `lookup` gives for it. -/
def Time.localSec (zone : Zone) (t : Time) : Int :=
  Time.unixSec t + (zone.lookup (Time.unixSec t)).offset

/-- Civil day number of the local date since 1970-01-01; it fixes `Year()`, `Month()` and
`Day()`. -/
def Time.dayNo (zone : Zone) (t : Time) : Int := Time.localSec zone t / 86400

/-- Go `Time.Weekday()`: Sunday = 0, ..., Saturday = 6 (1970-01-01 was a Thursday). -/
def Time.Weekday (zone : Zone) (t : Time) : Int := (Time.dayNo zone t + 4) % 7

/-- Go `Time.Hour()`, in 0..23. -/
def Time.Hour (zone : Zone) (t : Time) : Int := (Time.localSec zone t % 86400) / 3600

/-- Go `Time.Minute()`, in 0..59. -/
def Time.Minute (zone : Zone) (t : Time) : Int := (Time.localSec zone t % 3600) / 60

/-- Go `Time.Second()`, in 0..59. -/
def Time.Second (zone : Zone) (t : Time) : Int := Time.localSec zone t % 60

/-- Go `Time.Nanosecond()`. -/
def Time.Nanosecond (t : Time) : Int := t % 1000000000

/-- Go `t.Sub(u)`: the duration `t - u`, saturated to the `int64` range of `Duration`. -/
def Time.Sub (t u : Time) : Duration :=
  if t - u < minDuration then minDuration
  else if maxDuration < t - u then maxDuration
  else t - u

/-- Go `t.Before(u)`. -/
def Time.Before (t u : Time) : Bool := decide (t < u)

/-- Go `time.Date(now.Year(), now.Month(), now.Day(), hour, min, sec, 0, time.Local)`.
`ms`, `hm`, `dh` are `min, sec = norm(min, sec, 60)`, `hour, min = norm(hour, min, 60)` and
`day, hour = norm(day, hour, 24)`, the last with the day counted from the day of `now`
(`now.Day()` is at most 31, so that sum does not wrap).  `unix0` is the second count of the
normalised fields read as UTC, a 64-bit sum.  The offset is then found as `time.Date` does:
`lookup(unix0)`, and when `unix0 - offset` falls outside the period found, `lookup` of that
second instead.  `unixTime` stores the seconds counted from year 1, again a 64-bit sum. -/
def Date (zone : Zone) (now : Time) (hour min sec : Int) : Time :=
  let ms := norm min sec 60
  let hm := norm hour ms.1 60
  let dh := norm 0 hm.1 24
  let unix0 :=
    wrapInt64 ((Time.dayNo zone now + dh.1) * 86400 + dh.2 * 3600 + hm.2 * 60 + ms.2)
  let span := zone.lookup unix0
  let unix :=
    if span.offset ≠ 0 then
      if wrapInt64 (unix0 - span.offset) < span.start ∨
          wrapInt64 (unix0 - span.offset) ≥ span.stop then
        wrapInt64 (unix0 - (zone.lookup (wrapInt64 (unix0 - span.offset))).offset)
      else wrapInt64 (unix0 - span.offset)
    else unix0
  (wrapInt64 (unix + 62135596800) - 62135596800) * 1000000000

/-! ## Data model -/

/-- Source `RunTime`; `time.Weekday` is an `int`. -/
structure RunTime where
  Weekdays : List Int
  Hour : Int
  Minute : Int
  Second : Int
deriving DecidableEq, Repr

/-- What one call of a job body `Fn func() error` does: returns `nil`, returns an error
with the given text, or panics. -/
inductive FnResult where
  | ok
  | err (msg : String)
  | fault
deriving DecidableEq, Repr

/-- Source `Func`. -/
structure Func where
  Name : String
  Fn : FnResult
  Times : List RunTime
  timesParsed : List Time
deriving DecidableEq, Repr

/-- Source `Schedule`; `wg` is the counter of the `sync.WaitGroup`. -/
structure Schedule where
  SkipMissed : Bool
  ErrEmails : List String
  functions : List Func
  wg : Int
deriving DecidableEq, Repr

/-- Effects of the arming logic, in program order. -/
inductive Event where
  | wgAdd (n : Int)
  | afterFunc (d : Duration) (f : Func) (t : Time)
deriving DecidableEq, Repr

/-! ## The time resolver -/

/-- Source `past`. -/
def past (zone : Zone) (t : RunTime) (now : Time) : Bool :=
  if Time.Hour zone now > t.Hour then true
  else if Time.Hour zone now = t.Hour ∧ Time.Minute zone now > t.Minute then true
  else if Time.Hour zone now = t.Hour ∧ Time.Minute zone now = t.Minute ∧
      Time.Second zone now > t.Second then
    true
  else false

/-- First loop of `ParseTimes`: keep the specs whose `Weekdays` contain the weekday of the
clock reading made for them; `k` is the index of the next reading. -/
def todaysLoop (zone : Zone) (clock : Nat → Time) : Nat → List RunTime → List RunTime
  | _, [] => []
  | k, t :: ts =>
    if t.Weekdays.contains (Time.Weekday zone (clock k)) then
      t :: todaysLoop zone clock (k + 1) ts
    else todaysLoop zone clock (k + 1) ts

/-- Second loop of `ParseTimes`; `i` is the index of the head of the list in `todays`. -/
def futureLoop (zone : Zone) (now : Time) (skipMissed : Bool) :
    Nat → List RunTime → List Time
  | _, [] => []
  | i, t :: ts =>
    if (i == 0 && !skipMissed) || !past zone t now then
      Date zone now t.Hour t.Minute t.Second :: futureLoop zone now skipMissed (i + 1) ts
    else futureLoop zone now skipMissed (i + 1) ts

/-- Go `sort.Slice(future, func(i, j) bool { return future[i].Before(future[j]) })`.
Instants that are not `Before` one another are the same value, so every sorting
algorithm returns the same list (`sortSlice_unique`); insertion sort computes it. -/
def sortSlice (future : List Time) : List Time :=
  List.insertionSort (fun a b => a ≤ b) future

/-- Source `ParseTimes`.  Reading `k < len(times)` of the clock is the one made for
`times[k]` in the first loop, reading `len(times)` is `now`. -/
def ParseTimes (zone : Zone) (clock : Nat → Time) (times : List RunTime)
    (skipMissed : Bool) : List Time :=
  let todays := todaysLoop zone clock 0 times
  if todays.length = 0 then []
  else sortSlice (futureLoop zone (clock times.length) skipMissed 0 todays)

/-! ## The execution engine -/

/-- Source `Schedule.Add`; `clock` holds the readings `ParseTimes` makes. -/
def Schedule.Add (schedule : Schedule) (zone : Zone) (clock : Nat → Time) (run : Func) :
    Schedule :=
  let run1 : Func :=
    { run with timesParsed := ParseTimes zone clock run.Times schedule.SkipMissed }
  if run1.timesParsed.length = 0 then schedule
  else { schedule with functions := schedule.functions ++ [run1] }

/-- Inner loop of `RunHandleSleeps` (`for i, runtime := range fn.timesParsed`), from index
`i` on: the pair of `newtimes` and the effects, both in program order.  The closure handed
to `time.AfterFunc` captures `f = fn`, the loop copy of the job with the pending list it had
when the pass began. -/
def timesLoop (now : Time) (interval : Duration) (fn : Func) :
    Nat → List Time → List Time × List Event
  | _, [] => ([], [])
  | i, runtime :: rest =>
    if i ≠ 0 ∧ Time.Sub runtime now < 0 then timesLoop now interval fn (i + 1) rest
    else if Time.Sub runtime now ≤ interval then
      ((timesLoop now interval fn (i + 1) rest).1,
        Event.wgAdd 1 :: Event.afterFunc (Time.Sub runtime now) fn runtime ::
          (timesLoop now interval fn (i + 1) rest).2)
    else
      (runtime :: (timesLoop now interval fn (i + 1) rest).1,
        (timesLoop now interval fn (i + 1) rest).2)

/-- Outer loop of `RunHandleSleeps` (`for _, fn := range schedule.functions`): the pair of
`newfunctions` and the effects. -/
def functionsLoop (now : Time) (interval : Duration) : List Func → List Func × List Event
  | [] => ([], [])
  | fn :: rest =>
    let fn1 : Func := { fn with timesParsed := (timesLoop now interval fn 0 fn.timesParsed).1 }
    (if fn1.timesParsed.length > 0 then fn1 :: (functionsLoop now interval rest).1
      else (functionsLoop now interval rest).1,
      (timesLoop now interval fn 0 fn.timesParsed).2 ++ (functionsLoop now interval rest).2)

/-- Sum of the arguments of the `wg.Add` calls of a trace. -/
def wgAdded : List Event → Int
  | [] => 0
  | Event.wgAdd n :: rest => n + wgAdded rest
  | Event.afterFunc _ _ _ :: rest => wgAdded rest

/-- One reconciliation pass of `RunHandleSleeps` (the body of `for range tick.C` after
`tick.Reset`), run when the clock reads `now`: the schedule after the pass and the effects
of the pass. -/
def Schedule.pass (schedule : Schedule) (now : Time) (interval : Duration) :
    Schedule × List Event :=
  ({ schedule with
      functions := (functionsLoop now interval schedule.functions).1,
      wg := schedule.wg + wgAdded (functionsLoop now interval schedule.functions).2 },
    (functionsLoop now interval schedule.functions).2)

/-- The loop `for range tick.C` of `RunHandleSleeps`: `ticks` are the clock readings of the
passes that have happened so far, oldest first.  `tick.Reset(interval)` panics when the
interval is not positive (`none`).  The loop breaks when the active set is empty after a
pass; when `ticks` runs out first the result is the state in which the loop waits for the
next tick. -/
def reconcileLoop (interval : Duration) : List Time → Schedule → Option (Schedule × List Event)
  | [], schedule => some (schedule, [])
  | now :: ticks, schedule =>
    if interval ≤ 0 then none
    else if (schedule.pass now interval).1.functions.length = 0 then
      some (schedule.pass now interval)
    else
      match reconcileLoop interval ticks (schedule.pass now interval).1 with
      | none => none
      | some r => some (r.1, (schedule.pass now interval).2 ++ r.2)

/-- Source `Schedule.RunHandleSleeps`, up to `schedule.wg.Wait()`. -/
def Schedule.RunHandleSleeps (schedule : Schedule) (ticks : List Time) (interval : Duration) :
    Option (Schedule × List Event) :=
  reconcileLoop (if interval = 0 then Minute * 10 else interval) ticks schedule

/-- Inner loop of `Run`; `k` is the index of the clock reading `time.Until` makes next. -/
def runTimes (clock : Nat → Time) (fn : Func) : Nat → List Time → List Event
  | _, [] => []
  | k, t :: rest =>
    Event.wgAdd 1 :: Event.afterFunc (Time.Sub t (clock k)) fn t ::
      runTimes clock fn (k + 1) rest

/-- Outer loop of `Run`. -/
def runFunctions (clock : Nat → Time) : Nat → List Func → List Event
  | _, [] => []
  | k, fn :: rest =>
    runTimes clock fn k fn.timesParsed ++ runFunctions clock (k + fn.timesParsed.length) rest

/-- Source `Schedule.Run`, up to `schedule.wg.Wait()`.  Reading 0 of the clock is the one
`startMsg` prints; `time.Until(t)` is `t.Sub(time.Now())`. -/
def Schedule.Run (schedule : Schedule) (clock : Nat → Time) : Schedule × List Event :=
  ({ schedule with wg := schedule.wg + wgAdded (runFunctions clock 1 schedule.functions) },
    runFunctions clock 1 schedule.functions)

/-! ## Notions used to state the claims -/

/-- What a reconciliation pass does with one pending instant. -/
inductive Handling where
  | dropped
  | armed (delay : Duration)
  | kept
deriving DecidableEq, Repr

/-- The handling of the pending instant `t` at position `i` of a job's list by a pass at
`now` with window `interval`: dropped when `i` is not 0 and `t.Sub(now) < 0`; otherwise armed
with delay `t.Sub(now)` when `t.Sub(now) <= interval`; otherwise kept. -/
def handling (now : Time) (interval : Duration) (i : Nat) (t : Time) : Handling :=
  if i ≠ 0 ∧ Time.Sub t now < 0 then Handling.dropped
  else if Time.Sub t now ≤ interval then Handling.armed (Time.Sub t now)
  else Handling.kept

/-- The instants of a pending list, numbered from `i`, whose handling is `kept`. -/
def keptFrom (now : Time) (interval : Duration) (i : Nat) (times : List Time) : List Time :=
  ((List.enumFrom i times).filter
    (fun p => decide (handling now interval p.1 p.2 = Handling.kept))).map Prod.snd

/-- The effects of arming the instants of a pending list, numbered from `i`, whose handling
is `armed`: for each, in order, `wg.Add(1)` and then the timer with the delay. -/
def armedFrom (now : Time) (interval : Duration) (fn : Func) (i : Nat) (times : List Time) :
    List Event :=
  (List.enumFrom i times).flatMap (fun p =>
    match handling now interval p.1 p.2 with
    | Handling.armed d => [Event.wgAdd 1, Event.afterFunc d fn p.2]
    | _ => [])

/-- The timers of a trace, in program order: the job and the instant each will execute. -/
def armedCalls : List Event → List (Func × Time)
  | [] => []
  | Event.wgAdd _ :: rest => armedCalls rest
  | Event.afterFunc _ f t :: rest => (f, t) :: armedCalls rest

/-- Every resolved instant of every job of an active set, paired with its job, job by job. -/
def pendingCalls (fns : List Func) : List (Func × Time) :=
  fns.flatMap (fun f => f.timesParsed.map (fun t => (f, t)))

/-- The effects that arm the calls `calls`, the `k`-th of them (counted from `k0`) with the
delay measured at clock reading `k`: for each call `wg.Add(1)`, then the timer. -/
def armEvents (clock : Nat → Time) (k0 : Nat) (calls : List (Func × Time)) : List Event :=
  (List.enumFrom k0 calls).flatMap (fun p =>
    [Event.wgAdd 1, Event.afterFunc (Time.Sub p.2.2 (clock p.1)) p.2.1 p.2.2])

/-- The job of an active-set entry: the entry without its list of pending instants, which
is the part a reconciliation pass rewrites. -/
def jobOf (f : Func) : Func := { f with timesParsed := [] }

/-- The (job, instant) invocations a trace arms, in program order. -/
def invocations (trace : List Event) : List (Func × Time) :=
  (armedCalls trace).map (fun c => (jobOf c.1, c.2))

/-- The (job, instant) pairs pending in an active set. -/
def pendingInvocations (fns : List Func) : List (Func × Time) :=
  (pendingCalls fns).map (fun c => (jobOf c.1, c.2))

/-- The instant `ParseTimes` builds for a spec. -/
def instantOf (zone : Zone) (now : Time) (t : RunTime) : Time :=
  Date zone now t.Hour t.Minute t.Second

/-- The time-of-day of the spec is strictly earlier than the time-of-day of `now`, in the
lexicographic order of hour, minute, second. -/
def timeOfDayBefore (zone : Zone) (t : RunTime) (now : Time) : Prop :=
  t.Hour < Time.Hour zone now ∨
  (t.Hour = Time.Hour zone now ∧ t.Minute < Time.Minute zone now) ∨
  (t.Hour = Time.Hour zone now ∧ t.Minute = Time.Minute zone now ∧
    t.Second < Time.Second zone now)

instance (zone : Zone) (t : RunTime) (now : Time) :
    Decidable (timeOfDayBefore zone t now) := by
  unfold timeOfDayBefore
  infer_instance

/-- The specs of `times` scheduled on weekday `wd`, in declaration order. -/
def matching (wd : Int) (times : List RunTime) : List RunTime :=
  times.filter (fun t => decide (wd ∈ t.Weekdays))

/-! ## One invocation -/

/-- Calls one invocation makes into its surroundings, in program order: the line
`fmt.Printf` writes, `errs.Log` (the log sink), `mail.Send` (the notification sink) and
`schedule.wg.Done()`. -/
inductive Effect where
  | printf (name : String) (t : Time)
  | log (msg : String)
  | mail (subject : String) (body : String) (recipients : List String)
  | wgDone
deriving DecidableEq, Repr

/-- Modelled from the spec: `errs.CatchAndRecover` of the package `github.com/cmarkh/errs`,
whose source is not among the sources of this repository.  Deferred by `execute`, it catches
a fault of the job body and turns it into one logged error; without a fault it does nothing.
The result is the effects it has and whether the fault goes on past it. -/
def CatchAndRecover (faulted : Bool) : List Effect × Bool :=
  if faulted then ([Effect.log "recovered"], false) else ([], false)

/-- Source `Schedule.execute`: the schedule afterwards, the effects in program order, and
whether a fault leaves the invocation.  The body runs first; `fmt.Sprintln(err)` is the text
of the error followed by a newline.  The deferred calls then run last-in first-out, on every
path: `errs.CatchAndRecover()`, then `schedule.wg.Done()`. -/
def Schedule.execute (schedule : Schedule) (fn : Func) (t : Time) :
    Schedule × List Effect × Bool :=
  let body : List Effect × Bool :=
    match fn.Fn with
    | FnResult.ok => ([Effect.printf fn.Name t], false)
    | FnResult.err msg =>
      ([Effect.printf fn.Name t, Effect.log msg,
        Effect.mail (fn.Name ++ " Error") (msg ++ "\n") schedule.ErrEmails], false)
    | FnResult.fault => ([Effect.printf fn.Name t], true)
  ({ schedule with wg := schedule.wg - 1 },
    body.1 ++ (CatchAndRecover body.2).1 ++ [Effect.wgDone],
    (CatchAndRecover body.2).2)

/-- The calls of the log sink among the effects. -/
def logCalls : List Effect → List String
  | [] => []
  | Effect.log msg :: rest => msg :: logCalls rest
  | _ :: rest => logCalls rest

/-- The calls of the notification sink among the effects: subject, body, recipients. -/
def mailCalls : List Effect → List (String × String × List String)
  | [] => []
  | Effect.mail subject body recipients :: rest => (subject, body, recipients) :: mailCalls rest
  | _ :: rest => mailCalls rest

/-- The number of `wg.Done()` calls among the effects. -/
def doneCalls (effects : List Effect) : Nat :=
  List.count Effect.wgDone effects


/-- The invariant of the active set: no job in it has an empty list of pending instants. -/
def Schedule.noEmptyJob (schedule : Schedule) : Prop :=
  ∀ f ∈ schedule.functions, f.timesParsed ≠ []


/-- The instants of a pending list, numbered from `i`, whose handling is `dropped`. -/
def droppedFrom (now : Time) (interval : Duration) (i : Nat) (times : List Time) : List Time :=
  ((List.enumFrom i times).filter
    (fun p => decide (handling now interval p.1 p.2 = Handling.dropped))).map Prod.snd


/-- The second of the day of an instant on the local wall clock, in 0..86399: its
time-of-day as one number. -/
def Time.secondOfDay (zone : Zone) (t : Time) : Int := Time.localSec zone t % 86400

/-- The spec is a time-of-day of the clock: `Hour` in 0..23, `Minute` and `Second` in
0..59. -/
def RunTime.inRange (t : RunTime) : Prop :=
  (0 ≤ t.Hour ∧ t.Hour ≤ 23) ∧ (0 ≤ t.Minute ∧ t.Minute ≤ 59) ∧ (0 ≤ t.Second ∧ t.Second ≤ 59)

instance (t : RunTime) : Decidable (RunTime.inRange t) := by
  unfold RunTime.inRange
  infer_instance


/-- The number of timers of a trace armed with a negative delay: invocations whose instant
was already past when they were armed. -/
def staleCalls : List Event → Nat
  | [] => 0
  | Event.wgAdd _ :: rest => staleCalls rest
  | Event.afterFunc d _ _ :: rest => (if d < 0 then 1 else 0) + staleCalls rest


/-- The zone keeps the one offset `o` at all times: it has no daylight-saving or other
transition; `o` is less than a day. -/
def Zone.fixedOffset (zone : Zone) (o : Int) : Prop :=
  (∀ s, (zone.lookup s).offset = o) ∧ -86400 ≤ o ∧ o ≤ 86400

/-- A reading the system clock can deliver: within `1 << 62` seconds of the epoch, far from
where the 64-bit seconds of `time.Time` wrap. -/
def Time.representable (t : Time) : Prop :=
  -4611686018427387904 ≤ Time.unixSec t ∧ Time.unixSec t ≤ 4611686018427387904

instance (t : Time) : Decidable (Time.representable t) := by
  unfold Time.representable
  infer_instance

/-! ## Example inputs -/

/-- A host whose local zone is UTC. -/
def utcZone : Zone := ⟨fun _ => ⟨0, -9223372036854775808, 9223372036854775807⟩⟩

/-- Wednesday 2024-01-03 00:30:00 UTC. -/
def wed0030 : Time := 1704241800000000000

/-- Wednesday 2024-01-03 12:00:00 UTC. -/
def wed1200 : Time := 1704283200000000000

/-- The four specs of `testSort` in `cmd/test/main.go`, all scheduled on Wednesday. -/
def testSortTimes : List RunTime :=
  [⟨[3], 1, 1, 1⟩, ⟨[3], 22, 6, 1⟩, ⟨[3], 22, 4, 1⟩, ⟨[3], 2, 1, 5⟩]

/-- Wednesday 2024-01-03 09:00:00 UTC. -/
def wed0900 : Time := 1704272400000000000

/-- Wednesday 2024-01-03 09:05:00 UTC. -/
def wed0905 : Time := 1704272700000000000

/-- A schedule with no job, `SkipMissed = false`. -/
def emptySchedule : Schedule := ⟨false, [], [], 0⟩

/-- A job with runs at 09:00:00 and 09:00:10 on Wednesdays. -/
def jobA : Func := ⟨"a", FnResult.ok, [⟨[3], 9, 0, 0⟩, ⟨[3], 9, 0, 10⟩], []⟩

/-- A job with one run at 01:01:01 on Thursdays. -/
def jobC : Func := ⟨"c", FnResult.ok, [⟨[4], 1, 1, 1⟩], []⟩

/-- A job whose pending instants are 1 second and 20 minutes after 09:05:00. -/
def jobB : Func :=
  ⟨"b", FnResult.ok, [⟨[3], 9, 5, 1⟩, ⟨[3], 9, 25, 0⟩], [wed0905 + Second, wed0905 + Minute * 20]⟩

/-- A job with one pending instant, at 09:05:00. -/
def jobD : Func := ⟨"d", FnResult.ok, [⟨[3], 9, 5, 0⟩], [wed0905]⟩

/-- Wednesday 2024-01-03 09:00:10.5 UTC. -/
def wed090010h : Time := 1704272410500000000

/-- A job whose body returns the error "boom". -/
def jobE : Func := ⟨"e", FnResult.err "boom", [⟨[3], 9, 5, 0⟩], [wed0905]⟩

/-- A job whose body panics. -/
def jobF : Func := ⟨"f", FnResult.fault, [⟨[3], 9, 5, 0⟩], [wed0905]⟩

/-- A schedule with two notification addresses and one armed invocation in flight. -/
def mailSchedule : Schedule := ⟨false, ["ops@example.org", "dev@example.org"], [], 1⟩


/-- Job `a` after registration: pending at 09:00:00 and 09:00:10. -/
def jobAPending : Func := { jobA with timesParsed := [wed0900, wed0900 + Second * 10] }

/-- Ticks of a reconciliation loop started at 09:05:00 with a 10 minute interval. -/
def tenMinuteTicks (k : Nat) : Time := wed0905 + Minute * 10 * k


/-- The zone America/New_York from 2023-03-12 to 2025-03-09: EST is UTC-5, EDT is UTC-4;
daylight saving time starts on 2024-03-10 at 07:00 UTC, when the local clock jumps from
02:00 to 03:00. -/
def newYork : Zone :=
  ⟨fun s =>
    if s < 1699164000 then ⟨-14400, 1678604400, 1699164000⟩
    else if s < 1710054000 then ⟨-18000, 1699164000, 1710054000⟩
    else if s < 1730613600 then ⟨-14400, 1710054000, 1730613600⟩
    else ⟨-18000, 1730613600, 1741503600⟩⟩

/-- Sunday 2024-03-10 01:45:00 in New York (EST), 06:45:00 UTC. -/
def sun0145 : Time := 1710053100000000000

/-- A job with the four specs of `testSort`. -/
def testSortJob : Func := ⟨"testSort", FnResult.ok, testSortTimes, []⟩

/-- The `testSort` job after registration at 12:00:00 with `SkipMissed = false`: pending at
01:01:01, 22:04:01 and 22:06:01. -/
def testSortPending : Func :=
  { testSortJob with
    timesParsed :=
      [wed0030 + 1861 * Second, wed0030 + 77641 * Second, wed0030 + 77761 * Second] }

/-! ## Lemmas on the resolver -/

theorem sortSlice_sorted (l : List Time) : List.Sorted (fun a b => a ≤ b) (sortSlice l) :=
  List.sorted_insertionSort (fun a b : Int => a ≤ b) l

theorem sortSlice_perm (l : List Time) : List.Perm (sortSlice l) l :=
  List.perm_insertionSort (fun a b : Int => a ≤ b) l

/-- Any sorted rearrangement of the slice is the list `sortSlice` returns. -/
theorem sortSlice_unique (l r : List Time) (hp : List.Perm r l)
    (hs : List.Sorted (fun a b => a ≤ b) r) : r = sortSlice l :=
  List.eq_of_perm_of_sorted (hp.trans (sortSlice_perm l).symm) hs (sortSlice_sorted l)

theorem sortSlice_length (l : List Time) : (sortSlice l).length = l.length :=
  (sortSlice_perm l).length_eq

theorem mem_sortSlice (x : Time) (l : List Time) : x ∈ sortSlice l ↔ x ∈ l :=
  (sortSlice_perm l).mem_iff

theorem past_iff (zone : Zone) (t : RunTime) (now : Time) :
    past zone t now = true ↔ timeOfDayBefore zone t now := by
  unfold past timeOfDayBefore
  split_ifs with h1 h2 h3
  · simp only [true_iff]
    exact Or.inl h1
  · simp only [true_iff]
    exact Or.inr (Or.inl ⟨h2.1.symm, h2.2⟩)
  · simp only [true_iff]
    exact Or.inr (Or.inr ⟨h3.1.symm, h3.2.1.symm, h3.2.2⟩)
  · simp only [Bool.false_eq_true, false_iff]
    rintro (h | h | h)
    · exact h1 h
    · exact h2 ⟨h.1.symm, h.2⟩
    · exact h3 ⟨h.1.symm, h.2.1.symm, h.2.2⟩

theorem contains_weekday (ws : List Int) (wd : Int) : ws.contains wd = decide (wd ∈ ws) := by
  by_cases h : wd ∈ ws <;> simp [h]

theorem todaysLoop_eq_matching (zone : Zone) (clock : Nat → Time) (wd : Int)
    (hday : ∀ k, Time.Weekday zone (clock k) = wd) (times : List RunTime) (k : Nat) :
    todaysLoop zone clock k times = matching wd times := by
  induction times generalizing k with
  | nil => rfl
  | cons t ts ih =>
    have hts : matching wd (t :: ts) =
        if decide (wd ∈ t.Weekdays) = true then t :: matching wd ts else matching wd ts := by
      simp only [matching, List.filter_cons]
    rw [hts, todaysLoop, hday k, contains_weekday, ih (k + 1)]

theorem todaysLoop_nil_of_no_match (zone : Zone) (clock : Nat → Time) (times : List RunTime)
    (h : ∀ k, ∀ t ∈ times, Time.Weekday zone (clock k) ∉ t.Weekdays) (k : Nat) :
    todaysLoop zone clock k times = [] := by
  induction times generalizing k with
  | nil => rfl
  | cons t ts ih =>
    have ht : ¬ (Time.Weekday zone (clock k) ∈ t.Weekdays) := h k t (List.mem_cons_self t ts)
    rw [todaysLoop, contains_weekday, decide_eq_false ht]
    exact ih (fun j u hu => h j u (List.mem_cons_of_mem t hu)) (k + 1)

/-- After position 0 the second loop keeps exactly the specs that are not past. -/
theorem futureLoop_succ (zone : Zone) (now : Time) (skipMissed : Bool) (i : Nat) (ts : List RunTime) :
    futureLoop zone now skipMissed (i + 1) ts =
      (ts.filter (fun t => !past zone t now)).map (instantOf zone now) := by
  induction ts generalizing i with
  | nil => rfl
  | cons t ts ih =>
    simp only [futureLoop, List.filter_cons]
    cases hp : past zone t now <;> simp [ih, instantOf]

theorem futureLoop_skip (zone : Zone) (now : Time) (ts : List RunTime) :
    futureLoop zone now true 0 ts = (ts.filter (fun t => !past zone t now)).map (instantOf zone now) := by
  cases ts with
  | nil => rfl
  | cons t ts =>
    simp only [futureLoop, List.filter_cons, futureLoop_succ]
    cases hp : past zone t now <;> simp [instantOf]

theorem futureLoop_keep_first (zone : Zone) (now : Time) (t : RunTime) (ts : List RunTime) :
    futureLoop zone now false 0 (t :: ts) =
      instantOf zone now t :: (ts.filter (fun t => !past zone t now)).map (instantOf zone now) := by
  simp [futureLoop, futureLoop_succ, instantOf]

theorem ParseTimes_eq (zone : Zone) (clock : Nat → Time) (wd : Int)
    (hday : ∀ k, Time.Weekday zone (clock k) = wd) (times : List RunTime) (skipMissed : Bool) :
    ParseTimes zone clock times skipMissed =
      if (matching wd times).length = 0 then []
      else sortSlice (futureLoop zone (clock times.length) skipMissed 0 (matching wd times)) := by
  simp only [ParseTimes, todaysLoop_eq_matching zone clock wd hday times 0]

theorem ParseTimes_skip_eq (zone : Zone) (clock : Nat → Time) (wd : Int)
    (hday : ∀ k, Time.Weekday zone (clock k) = wd) (times : List RunTime) :
    ParseTimes zone clock times true =
      sortSlice (((matching wd times).filter (fun t => !past zone t (clock times.length))).map
        (instantOf zone (clock times.length))) := by
  rw [ParseTimes_eq zone clock wd hday, futureLoop_skip]
  split_ifs with h
  · rw [List.length_eq_zero.mp h]
    rfl
  · rfl

theorem ParseTimes_keep_eq (zone : Zone) (clock : Nat → Time) (wd : Int)
    (hday : ∀ k, Time.Weekday zone (clock k) = wd) (times : List RunTime)
    (first : RunTime) (rest : List RunTime) (h : matching wd times = first :: rest) :
    ParseTimes zone clock times false =
      sortSlice (instantOf zone (clock times.length) first ::
        (rest.filter (fun t => !past zone t (clock times.length))).map
          (instantOf zone (clock times.length))) := by
  rw [ParseTimes_eq zone clock wd hday, h, futureLoop_keep_first]
  simp

theorem find_matching (wd : Int) (times : List RunTime) :
    times.find? (fun t => decide (wd ∈ t.Weekdays)) = (matching wd times).head? := by
  induction times with
  | nil => rfl
  | cons t ts ih =>
    by_cases h : wd ∈ t.Weekdays
    · simp [matching, List.find?_cons, List.filter_cons, h]
    · simp [matching, List.find?_cons, List.filter_cons, h]

theorem mem_matching (wd : Int) (times : List RunTime) (t : RunTime) :
    t ∈ matching wd times ↔ t ∈ times ∧ wd ∈ t.Weekdays := by
  simp [matching]

/-! ## The time resolver: claims -/

/-- C1: for every list of specs, every `skipMissed` and every sequence of clock readings,
the list `ParseTimes` returns is sorted ascending by instant. -/
theorem ParseTimes_sorted (zone : Zone) (clock : Nat → Time) (times : List RunTime) (skipMissed : Bool) :
    List.Sorted (fun a b => a ≤ b) (ParseTimes zone clock times skipMissed) := by
  unfold ParseTimes
  simp only
  split_ifs
  · exact List.sorted_nil
  · exact sortSlice_sorted _

/-- C2: when no spec of the list (the empty list included) is scheduled on the weekday the
clock shows, `ParseTimes` returns the empty list, whatever `skipMissed` is. -/
theorem ParseTimes_no_match (zone : Zone) (clock : Nat → Time) (times : List RunTime) (skipMissed : Bool)
    (h : ∀ k, ∀ t ∈ times, Time.Weekday zone (clock k) ∉ t.Weekdays) :
    ParseTimes zone clock times skipMissed = [] := by
  simp [ParseTimes, todaysLoop_nil_of_no_match zone clock times h 0]

theorem ParseTimes_no_match_witness :
    (∀ k : Nat, ∀ t ∈ [(⟨[1, 2], 9, 0, 0⟩ : RunTime), ⟨[4, 5], 17, 30, 0⟩],
        Time.Weekday utcZone ((fun _ => wed1200) k) ∉ t.Weekdays) ∧
      ParseTimes utcZone (fun _ => wed1200) [⟨[1, 2], 9, 0, 0⟩, ⟨[4, 5], 17, 30, 0⟩] true = [] ∧
      ParseTimes utcZone (fun _ => wed1200) [⟨[1, 2], 9, 0, 0⟩, ⟨[4, 5], 17, 30, 0⟩] false = [] ∧
      ParseTimes utcZone (fun _ => wed1200) [] false = [] :=
  have h : ∀ k : Nat, ∀ t ∈ [(⟨[1, 2], 9, 0, 0⟩ : RunTime), ⟨[4, 5], 17, 30, 0⟩],
      Time.Weekday utcZone ((fun _ => wed1200) k) ∉ t.Weekdays := by
    intro k
    beta_reduce
    decide
  ⟨h, ParseTimes_no_match _ _ _ true h, ParseTimes_no_match _ _ _ false h,
    ParseTimes_no_match _ _ [] false (fun _ _ ht => absurd ht (List.not_mem_nil _))⟩

/-- C3: with `skipMissed = false`, when at least one spec is scheduled on today's weekday
`wd`, `ParseTimes` returns a non-empty list that contains the instant of the first such spec
in declaration order, whether or not that spec is past. -/
theorem ParseTimes_keep_contains_first (zone : Zone) (clock : Nat → Time) (wd : Int)
    (hday : ∀ k, Time.Weekday zone (clock k) = wd) (times : List RunTime)
    (h : ∃ t ∈ times, wd ∈ t.Weekdays) :
    ∃ first, times.find? (fun t => decide (wd ∈ t.Weekdays)) = some first ∧
      ParseTimes zone clock times false ≠ [] ∧
      instantOf zone (clock times.length) first ∈ ParseTimes zone clock times false := by
  obtain ⟨t, ht, hwd⟩ := h
  have hmem : t ∈ matching wd times := (mem_matching wd times t).mpr ⟨ht, hwd⟩
  cases hm : matching wd times with
  | nil => rw [hm] at hmem; exact absurd hmem (List.not_mem_nil t)
  | cons first rest =>
    have hin : instantOf zone (clock times.length) first ∈ ParseTimes zone clock times false := by
      rw [ParseTimes_keep_eq zone clock wd hday times first rest hm, mem_sortSlice]
      exact List.mem_cons_self _ _
    refine ⟨first, ?_, List.ne_nil_of_mem hin, hin⟩
    rw [find_matching, hm]
    rfl

theorem ParseTimes_keep_contains_first_witness :
    (∀ k : Nat, Time.Weekday utcZone ((fun _ => wed1200) k) = 3) ∧
      (∃ t ∈ testSortTimes, (3 : Int) ∈ t.Weekdays) ∧
      past utcZone ⟨[3], 1, 1, 1⟩ wed1200 = true ∧
      ∃ first, testSortTimes.find? (fun t => decide ((3 : Int) ∈ t.Weekdays)) = some first ∧
        ParseTimes utcZone (fun _ => wed1200) testSortTimes false ≠ [] ∧
        instantOf utcZone ((fun _ => wed1200) testSortTimes.length) first ∈
          ParseTimes utcZone (fun _ => wed1200) testSortTimes false :=
  ⟨fun _ => by beta_reduce; decide, by decide, by decide,
    ParseTimes_keep_contains_first utcZone (fun _ => wed1200) 3 (fun _ => by beta_reduce; decide) testSortTimes
      (by decide)⟩

/-- C4: with `skipMissed = true`, `ParseTimes` returns exactly one instant for every spec
scheduled today that is not past (duplicates kept): the result is a rearrangement of the
instants of those specs, its length is the number of today-matching specs whose time-of-day
is not strictly earlier than the current time-of-day, every returned instant comes from a
today-matching spec that is not past, and the result is empty when all of them are past. -/
theorem ParseTimes_skip (zone : Zone) (clock : Nat → Time) (wd : Int)
    (hday : ∀ k, Time.Weekday zone (clock k) = wd) (times : List RunTime) :
    List.Perm (ParseTimes zone clock times true)
        (((matching wd times).filter (fun t => !past zone t (clock times.length))).map
          (instantOf zone (clock times.length))) ∧
      (ParseTimes zone clock times true).length =
        (matching wd times).countP
          (fun t => decide (¬ timeOfDayBefore zone t (clock times.length))) ∧
      (∀ x ∈ ParseTimes zone clock times true, ∃ t ∈ times, wd ∈ t.Weekdays ∧
        ¬ timeOfDayBefore zone t (clock times.length) ∧ past zone t (clock times.length) = false ∧
        x = instantOf zone (clock times.length) t) ∧
      ((∀ t ∈ times, wd ∈ t.Weekdays → timeOfDayBefore zone t (clock times.length)) →
        ParseTimes zone clock times true = []) := by
  have hfun : (fun t : RunTime => decide (¬ timeOfDayBefore zone t (clock times.length))) =
      (fun t => !past zone t (clock times.length)) := by
    funext t
    by_cases hp : timeOfDayBefore zone t (clock times.length)
    · simp [hp, (past_iff zone t _).mpr hp]
    · have hf : past zone t (clock times.length) = false := by
        cases hq : past zone t (clock times.length)
        · rfl
        · exact absurd ((past_iff zone t _).mp hq) hp
      simp [hp, hf]
  rw [ParseTimes_skip_eq zone clock wd hday times]
  refine ⟨sortSlice_perm _, ?_, ?_, ?_⟩
  · rw [sortSlice_length, List.length_map, hfun, List.countP_eq_length_filter]
  · intro x hx
    rw [mem_sortSlice, List.mem_map] at hx
    obtain ⟨t, ht, rfl⟩ := hx
    rw [List.mem_filter] at ht
    obtain ⟨htm, hnp⟩ := ht
    have hpf : past zone t (clock times.length) = false := by simpa using hnp
    have hmt := (mem_matching wd times t).mp htm
    refine ⟨t, hmt.1, hmt.2, ?_, hpf, rfl⟩
    intro hb
    rw [(past_iff zone t _).mpr hb] at hpf
    exact Bool.noConfusion hpf
  · intro hall
    have hnil : (matching wd times).filter (fun t => !past zone t (clock times.length)) = [] := by
      rw [List.filter_eq_nil_iff]
      intro t ht
      have hmt := (mem_matching wd times t).mp ht
      simp [(past_iff zone t _).mpr (hall t hmt.1 hmt.2)]
    rw [hnil]
    rfl

theorem ParseTimes_skip_witness :
    (∀ k : Nat, Time.Weekday utcZone ((fun _ => wed1200) k) = 3) ∧
      ParseTimes utcZone (fun _ => wed1200) testSortTimes true =
        [instantOf utcZone wed1200 ⟨[3], 22, 4, 1⟩, instantOf utcZone wed1200 ⟨[3], 22, 6, 1⟩] ∧
      (ParseTimes utcZone (fun _ => wed1200) testSortTimes true).length =
        (matching 3 testSortTimes).countP
          (fun t => decide (¬ timeOfDayBefore utcZone t ((fun _ => wed1200) testSortTimes.length))) :=
  ⟨fun _ => by beta_reduce; decide, by decide,
    (ParseTimes_skip utcZone (fun _ => wed1200) 3 (fun _ => by beta_reduce; decide) testSortTimes).2.1⟩

/-- C5: with `skipMissed = false` and a non-empty list `first :: rest` of today-matching
specs (in declaration order), `ParseTimes` keeps `first` whatever its time-of-day and, of
`rest`, exactly the specs that are not past: the result is a rearrangement of the instant of
`first` followed by the instants of the specs of `rest` that are not past, so its length is
1 plus the number of those specs. -/
theorem ParseTimes_keep (zone : Zone) (clock : Nat → Time) (wd : Int)
    (hday : ∀ k, Time.Weekday zone (clock k) = wd) (times : List RunTime)
    (first : RunTime) (rest : List RunTime) (h : matching wd times = first :: rest) :
    times.find? (fun t => decide (wd ∈ t.Weekdays)) = some first ∧
      List.Perm (ParseTimes zone clock times false)
        (instantOf zone (clock times.length) first ::
          (rest.filter (fun t => !past zone t (clock times.length))).map
            (instantOf zone (clock times.length))) ∧
      (ParseTimes zone clock times false).length =
        1 + rest.countP (fun t => !past zone t (clock times.length)) := by
  rw [ParseTimes_keep_eq zone clock wd hday times first rest h]
  refine ⟨?_, sortSlice_perm _, ?_⟩
  · rw [find_matching, h]
    rfl
  · rw [sortSlice_length, List.length_cons, List.length_map, List.countP_eq_length_filter]
    omega

theorem ParseTimes_keep_witness :
    (∀ k : Nat, Time.Weekday utcZone ((fun _ => wed1200) k) = 3) ∧
      matching 3 testSortTimes =
        ⟨[3], 1, 1, 1⟩ :: [⟨[3], 22, 6, 1⟩, ⟨[3], 22, 4, 1⟩, ⟨[3], 2, 1, 5⟩] ∧
      past utcZone ⟨[3], 1, 1, 1⟩ wed1200 = true ∧ past utcZone ⟨[3], 2, 1, 5⟩ wed1200 = true ∧
      ParseTimes utcZone (fun _ => wed1200) testSortTimes false =
        [instantOf utcZone wed1200 ⟨[3], 1, 1, 1⟩, instantOf utcZone wed1200 ⟨[3], 22, 4, 1⟩,
          instantOf utcZone wed1200 ⟨[3], 22, 6, 1⟩] ∧
      (ParseTimes utcZone (fun _ => wed1200) testSortTimes false).length =
        1 + [(⟨[3], 22, 6, 1⟩ : RunTime), ⟨[3], 22, 4, 1⟩, ⟨[3], 2, 1, 5⟩].countP
          (fun t => !past utcZone t ((fun _ => wed1200) testSortTimes.length)) :=
  ⟨fun _ => by beta_reduce; decide, by decide, by decide, by decide, by decide,
    (ParseTimes_keep utcZone (fun _ => wed1200) 3 (fun _ => by beta_reduce; decide) testSortTimes
      ⟨[3], 1, 1, 1⟩ [⟨[3], 22, 6, 1⟩, ⟨[3], 22, 4, 1⟩, ⟨[3], 2, 1, 5⟩] (by decide)).2.2⟩

/-! ## Lemmas on the execution engine -/

theorem timesLoop_eq (now : Time) (interval : Duration) (fn : Func) (times : List Time)
    (i : Nat) :
    timesLoop now interval fn i times =
      (keptFrom now interval i times, armedFrom now interval fn i times) := by
  induction times generalizing i with
  | nil => rfl
  | cons t ts ih =>
    unfold timesLoop
    simp only [ih (i + 1), keptFrom, armedFrom, List.enumFrom_cons, List.filter_cons,
      List.flatMap_cons, handling]
    split_ifs <;> simp_all

theorem functionsLoop_eq (now : Time) (interval : Duration) (fns : List Func) :
    functionsLoop now interval fns =
      (fns.filterMap (fun fn =>
          if (keptFrom now interval 0 fn.timesParsed).length > 0 then
            some { fn with timesParsed := keptFrom now interval 0 fn.timesParsed }
          else none),
        fns.flatMap (fun fn => armedFrom now interval fn 0 fn.timesParsed)) := by
  induction fns with
  | nil => rfl
  | cons fn rest ih =>
    unfold functionsLoop
    simp only [ih, timesLoop_eq, List.filterMap_cons, List.flatMap_cons]
    split_ifs <;> simp_all

theorem Sub_neg_iff (t u : Time) : Time.Sub t u < 0 ↔ t < u := by
  unfold Time.Sub minDuration maxDuration
  unfold Time Duration at *
  split_ifs <;> omega

theorem lt_of_lt_Sub (t u : Time) (i : Duration) (hi : minDuration ≤ i)
    (h : i < Time.Sub t u) : i < t - u := by
  unfold Time.Sub at h
  unfold minDuration at hi
  unfold minDuration maxDuration at h
  unfold Time Duration at *
  split_ifs at h <;> omega

theorem Sub_eq (t u : Time) (h1 : minDuration ≤ t - u) (h2 : t - u ≤ maxDuration) :
    Time.Sub t u = t - u := by
  unfold Time.Sub
  unfold minDuration at h1
  unfold maxDuration at h2
  unfold minDuration maxDuration
  unfold Time Duration at *
  split_ifs <;> omega

theorem mem_keptFrom (now : Time) (interval : Duration) (times : List Time) (i : Nat)
    (t : Time) (h : t ∈ keptFrom now interval i times) :
    t ∈ times ∧ interval < Time.Sub t now := by
  induction times generalizing i with
  | nil => simp [keptFrom] at h
  | cons a ts ih =>
    simp only [keptFrom, List.enumFrom_cons, List.filter_cons] at h
    split_ifs at h with hk
    · simp only [List.map_cons, List.mem_cons] at h
      rcases h with h | h
      · subst h
        refine ⟨List.mem_cons_self _ _, ?_⟩
        simp only [handling, decide_eq_true_eq] at hk
        split_ifs at hk with h1 h2
        exact lt_of_not_ge h2
      · exact ⟨List.mem_cons_of_mem _ (ih (i + 1) h).1, (ih (i + 1) h).2⟩
    · exact ⟨List.mem_cons_of_mem _ (ih (i + 1) h).1, (ih (i + 1) h).2⟩

theorem mem_armedFrom (now : Time) (interval : Duration) (fn : Func) (times : List Time)
    (i : Nat) (d : Duration) (f : Func) (t : Time)
    (h : Event.afterFunc d f t ∈ armedFrom now interval fn i times) :
    f = fn ∧ t ∈ times ∧ d = Time.Sub t now ∧ d ≤ interval := by
  induction times generalizing i with
  | nil => simp [armedFrom] at h
  | cons a ts ih =>
    simp only [armedFrom, List.enumFrom_cons, List.flatMap_cons, List.mem_append] at h
    rcases h with h | h
    · simp only [handling] at h
      split_ifs at h with h1 h2
      · simp at h
      · simp only [List.mem_cons, Event.afterFunc.injEq, List.mem_singleton, false_or] at h
        rcases h with h | ⟨hd, hf, ht⟩ | h
        · exact Event.noConfusion h
        · subst hd
          subst hf
          subst ht
          exact ⟨rfl, List.mem_cons_self _ _, rfl, h2⟩
        · exact absurd h (List.not_mem_nil _)
      · simp at h
    · obtain ⟨h1, h2, h3⟩ := ih (i + 1) h
      exact ⟨h1, List.mem_cons_of_mem _ h2, h3⟩

theorem armedCalls_append (a b : List Event) :
    armedCalls (a ++ b) = armedCalls a ++ armedCalls b := by
  induction a with
  | nil => rfl
  | cons e rest ih => cases e <;> simp [armedCalls, ih]

theorem wgAdded_append (a b : List Event) : wgAdded (a ++ b) = wgAdded a + wgAdded b := by
  induction a with
  | nil => simp [wgAdded]
  | cons e rest ih => cases e <;> simp [wgAdded, ih, add_assoc]

theorem runTimes_eq (clock : Nat → Time) (fn : Func) (times : List Time) (k : Nat) :
    runTimes clock fn k times = armEvents clock k (times.map (fun t => (fn, t))) := by
  induction times generalizing k with
  | nil => rfl
  | cons t ts ih =>
    simp [runTimes, armEvents, List.enumFrom_cons, ih (k + 1)]

theorem armEvents_append (clock : Nat → Time) (k : Nat) (a b : List (Func × Time)) :
    armEvents clock k (a ++ b) = armEvents clock k a ++ armEvents clock (k + a.length) b := by
  simp [armEvents, List.enumFrom_append]

theorem runFunctions_eq (clock : Nat → Time) (fns : List Func) (k : Nat) :
    runFunctions clock k fns = armEvents clock k (pendingCalls fns) := by
  induction fns generalizing k with
  | nil => rfl
  | cons fn rest ih =>
    simp [runFunctions, pendingCalls, List.flatMap_cons, armEvents_append, runTimes_eq,
      ih (k + fn.timesParsed.length)]

theorem armEvents_cons (clock : Nat → Time) (k : Nat) (c : Func × Time)
    (rest : List (Func × Time)) :
    armEvents clock k (c :: rest) =
      Event.wgAdd 1 :: Event.afterFunc (Time.Sub c.2 (clock k)) c.1 c.2 ::
        armEvents clock (k + 1) rest := by
  simp only [armEvents, List.enumFrom_cons, List.flatMap_cons, List.cons_append,
    List.nil_append]

theorem armedCalls_armEvents (clock : Nat → Time) (calls : List (Func × Time)) (k : Nat) :
    armedCalls (armEvents clock k calls) = calls := by
  induction calls generalizing k with
  | nil => rfl
  | cons c rest ih => rw [armEvents_cons, armedCalls, armedCalls, ih (k + 1)]

theorem wgAdded_armEvents (clock : Nat → Time) (calls : List (Func × Time)) (k : Nat) :
    wgAdded (armEvents clock k calls) = calls.length := by
  induction calls generalizing k with
  | nil => rfl
  | cons c rest ih =>
    rw [armEvents_cons, wgAdded, wgAdded, ih (k + 1), List.length_cons]
    push_cast
    ring

theorem count_wgAdd_armEvents (clock : Nat → Time) (calls : List (Func × Time)) (k : Nat) :
    List.count (Event.wgAdd 1) (armEvents clock k calls) = calls.length := by
  induction calls generalizing k with
  | nil => rfl
  | cons c rest ih =>
    rw [armEvents_cons, List.count_cons_self, List.count_cons_of_ne (by simp), ih (k + 1),
      List.length_cons]

theorem pendingCalls_length_of_single (fns : List Func)
    (h : ∀ f ∈ fns, f.timesParsed.length = 1) : (pendingCalls fns).length = fns.length := by
  induction fns with
  | nil => rfl
  | cons fn rest ih =>
    have h1 := h fn (List.mem_cons_self _ _)
    have h2 := ih (fun f hf => h f (List.mem_cons_of_mem _ hf))
    simp only [pendingCalls] at h2
    simp [pendingCalls, List.flatMap_cons, h1, h2]
    omega

theorem keptFrom_cons (now : Time) (interval : Duration) (i : Nat) (a : Time)
    (ts : List Time) :
    keptFrom now interval i (a :: ts) =
      if handling now interval i a = Handling.kept then a :: keptFrom now interval (i + 1) ts
      else keptFrom now interval (i + 1) ts := by
  simp only [keptFrom, List.enumFrom_cons, List.filter_cons, decide_eq_true_eq]
  split_ifs <;> rfl

theorem armedFrom_cons (now : Time) (interval : Duration) (fn : Func) (i : Nat) (a : Time)
    (ts : List Time) :
    armedFrom now interval fn i (a :: ts) =
      (match handling now interval i a with
        | Handling.armed d => [Event.wgAdd 1, Event.afterFunc d fn a]
        | _ => []) ++ armedFrom now interval fn (i + 1) ts := by
  simp only [armedFrom, List.enumFrom_cons, List.flatMap_cons]

theorem invocations_append (a b : List Event) :
    invocations (a ++ b) = invocations a ++ invocations b := by
  simp [invocations, armedCalls_append]

theorem pendingInvocations_cons (fn : Func) (rest : List Func) :
    pendingInvocations (fn :: rest) =
      fn.timesParsed.map (fun t => (jobOf fn, t)) ++ pendingInvocations rest := by
  simp [pendingInvocations, pendingCalls, List.flatMap_cons]

theorem mem_enumFrom_snd (i : Nat) (times : List Time) (p : Nat × Time)
    (h : p ∈ List.enumFrom i times) : p.2 ∈ times := by
  induction times generalizing i with
  | nil => simp at h
  | cons a ts ih =>
    rw [List.enumFrom_cons, List.mem_cons] at h
    rcases h with h | h
    · rw [h]
      exact List.mem_cons_self _ _
    · exact List.mem_cons_of_mem _ (ih (i + 1) h)

theorem handling_ne_dropped_of_le (now : Time) (interval : Duration) (i : Nat) (t : Time)
    (h : now ≤ t) : handling now interval i t ≠ Handling.dropped := by
  have hs : ¬ Time.Sub t now < 0 := by
    rw [Sub_neg_iff]
    exact not_lt.mpr h
  simp only [handling]
  split_ifs with h1 <;> simp
  exact hs h1.2

theorem handling_zero_ne_dropped (now : Time) (interval : Duration) (t : Time) :
    handling now interval 0 t ≠ Handling.dropped := by
  simp only [handling]
  split_ifs with h1 <;> simp
  exact h1.1 rfl

/-- A job none of whose instants after the first is before `now` has no instant dropped. -/
theorem no_drop_of_tail (now : Time) (interval : Duration) (times : List Time)
    (h : ∀ t ∈ times.tail, now ≤ t) :
    ∀ p ∈ List.enumFrom 0 times, handling now interval p.1 p.2 ≠ Handling.dropped := by
  cases times with
  | nil => simp
  | cons a ts =>
    intro p hp
    rw [List.enumFrom_cons, List.mem_cons] at hp
    rcases hp with hp | hp
    · rw [hp]
      exact handling_zero_ne_dropped now interval a
    · exact handling_ne_dropped_of_le now interval p.1 p.2 (h p.2 (mem_enumFrom_snd _ ts p hp))

theorem perm_interleave {α : Type} (a t k q x y : List α) (h1 : List.Perm (a ++ k) x)
    (h2 : List.Perm (t ++ q) y) : List.Perm ((a ++ t) ++ (k ++ q)) (x ++ y) := by
  have h3 : List.Perm (t ++ (k ++ q)) (k ++ (t ++ q)) := List.perm_append_comm_assoc t k q
  have h4 : List.Perm (a ++ (t ++ (k ++ q))) (a ++ (k ++ (t ++ q))) := h3.append_left a
  rw [List.append_assoc]
  refine h4.trans ?_
  rw [← List.append_assoc]
  exact h1.append h2

/-- When no instant of a job is dropped, the invocations armed and the instants kept make up
the pending list of the job. -/
theorem job_pass_perm (now : Time) (interval : Duration) (fn : Func) (times : List Time)
    (i : Nat)
    (hnd : ∀ p ∈ List.enumFrom i times, handling now interval p.1 p.2 ≠ Handling.dropped) :
    List.Perm
      (invocations (armedFrom now interval fn i times) ++
        (keptFrom now interval i times).map (fun t => (jobOf fn, t)))
      (times.map (fun t => (jobOf fn, t))) := by
  induction times generalizing i with
  | nil => exact List.Perm.refl _
  | cons a ts ih =>
    have hrest := ih (i + 1) (fun p hp => hnd p (by
      rw [List.enumFrom_cons]
      exact List.mem_cons_of_mem _ hp))
    have hhead := hnd (i, a) (by
      rw [List.enumFrom_cons]
      exact List.mem_cons_self _ _)
    rw [armedFrom_cons, keptFrom_cons, invocations_append, List.map_cons]
    cases hh : handling now interval i a with
    | dropped => exact absurd hh hhead
    | armed d =>
      simp only [invocations, armedCalls, List.map_cons, List.map_nil, reduceCtorEq, if_false,
        List.cons_append, List.nil_append]
      exact hrest.cons _
    | kept =>
      simp only [invocations, armedCalls, List.map_nil, if_true, List.map_cons,
        List.nil_append]
      exact List.perm_middle.trans (hrest.cons _)

theorem functionsLoop_cons (now : Time) (interval : Duration) (fn : Func) (rest : List Func) :
    functionsLoop now interval (fn :: rest) =
      (if (keptFrom now interval 0 fn.timesParsed).length > 0 then
          { fn with timesParsed := keptFrom now interval 0 fn.timesParsed } ::
            (functionsLoop now interval rest).1
        else (functionsLoop now interval rest).1,
        armedFrom now interval fn 0 fn.timesParsed ++ (functionsLoop now interval rest).2) := by
  rw [functionsLoop]
  simp only [timesLoop_eq]

/-- When no instant is dropped, the invocations a pass arms and the invocations it leaves
pending make up the invocations pending before the pass. -/
theorem functionsLoop_perm (now : Time) (interval : Duration) (fns : List Func)
    (hnd : ∀ f ∈ fns, ∀ t ∈ f.timesParsed.tail, now ≤ t) :
    List.Perm
      (invocations (functionsLoop now interval fns).2 ++
        pendingInvocations (functionsLoop now interval fns).1)
      (pendingInvocations fns) := by
  induction fns with
  | nil => exact List.Perm.refl _
  | cons fn rest ih =>
    have hrest := ih (fun f hf => hnd f (List.mem_cons_of_mem _ hf))
    have hjob := job_pass_perm now interval fn fn.timesParsed 0
      (no_drop_of_tail now interval fn.timesParsed (hnd fn (List.mem_cons_self _ _)))
    have hnew : pendingInvocations (functionsLoop now interval (fn :: rest)).1 =
        (keptFrom now interval 0 fn.timesParsed).map (fun t => (jobOf fn, t)) ++
          pendingInvocations (functionsLoop now interval rest).1 := by
      rw [functionsLoop_cons]
      split_ifs with hk
      · rw [pendingInvocations_cons]
        rfl
      · have hnil : keptFrom now interval 0 fn.timesParsed = [] :=
          List.length_eq_zero.mp (by omega)
        rw [hnil]
        rfl
    have htr : (functionsLoop now interval (fn :: rest)).2 =
        armedFrom now interval fn 0 fn.timesParsed ++ (functionsLoop now interval rest).2 := by
      rw [functionsLoop_cons]
    rw [hnew, htr, invocations_append, pendingInvocations_cons]
    exact perm_interleave _ _ _ _ _ _ hjob hrest

theorem functionsLoop_pending (now : Time) (interval : Duration) (fns : List Func)
    (f1 : Func) (h : f1 ∈ (functionsLoop now interval fns).1) :
    f1.timesParsed ≠ [] ∧
      ∀ t ∈ f1.timesParsed, interval < Time.Sub t now ∧ ∃ f ∈ fns, t ∈ f.timesParsed := by
  simp only [functionsLoop_eq, List.mem_filterMap] at h
  obtain ⟨fn, hfn, hsome⟩ := h
  split_ifs at hsome with hk
  simp only [Option.some.injEq] at hsome
  subst hsome
  refine ⟨fun hnil => ?_, fun t ht => ?_⟩
  · simp only at hnil
    rw [hnil] at hk
    exact absurd hk (by decide)
  · have hm := mem_keptFrom now interval fn.timesParsed 0 t ht
    exact ⟨hm.2, fn, hfn, hm.1⟩

/-- With every pass at most `interval` after the one before, no instant other than a first
one past at the first pass, and every instant within the window of some pass, the loop ends
with an empty active set and has armed every pending invocation exactly once. -/
theorem reconcileLoop_complete (interval : Duration) (hpos : 0 < interval)
    (ticks : List Time) :
    ∀ (now : Time) (schedule : Schedule),
      List.Chain (fun a b : Time => b - a ≤ interval) now ticks →
      (∀ f ∈ schedule.functions, ∀ t ∈ f.timesParsed.tail, now ≤ t) →
      (∀ f ∈ schedule.functions, ∀ t ∈ f.timesParsed,
        ∃ tk ∈ now :: ticks, t - tk ≤ interval) →
      ∃ r, reconcileLoop interval (now :: ticks) schedule = some r ∧ r.1.functions = [] ∧
        List.Perm (invocations r.2) (pendingInvocations schedule.functions) := by
  have hmin : minDuration ≤ interval := by
    unfold minDuration
    unfold Duration at *
    omega
  induction ticks with
  | nil =>
    intro now schedule _ hnd hcov
    have hperm := functionsLoop_perm now interval schedule.functions hnd
    have hnone : (functionsLoop now interval schedule.functions).1 = [] := by
      rw [List.eq_nil_iff_forall_not_mem]
      intro f1 hf1
      obtain ⟨hne, hall⟩ := functionsLoop_pending now interval schedule.functions f1 hf1
      obtain ⟨t, ht⟩ := List.exists_mem_of_ne_nil _ hne
      obtain ⟨hlt, f, hf, htf⟩ := hall t ht
      obtain ⟨tk, htk, hle⟩ := hcov f hf t htf
      rw [List.mem_singleton] at htk
      rw [htk] at hle
      have := lt_of_lt_Sub t now interval hmin hlt
      exact absurd hle (not_le.mpr this)
    refine ⟨schedule.pass now interval, ?_, hnone, ?_⟩
    · rw [reconcileLoop, if_neg (not_le.mpr hpos), if_pos]
      show (functionsLoop now interval schedule.functions).1.length = 0
      rw [hnone]
      rfl
    · rw [hnone] at hperm
      simpa [Schedule.pass, pendingInvocations, pendingCalls] using hperm
  | cons next rest ih =>
    intro now schedule hchain hnd hcov
    have hperm := functionsLoop_perm now interval schedule.functions hnd
    rw [List.chain_cons] at hchain
    by_cases hemp : (schedule.pass now interval).1.functions.length = 0
    · refine ⟨schedule.pass now interval, ?_, List.length_eq_zero.mp hemp, ?_⟩
      · rw [reconcileLoop, if_neg (not_le.mpr hpos), if_pos hemp]
      · have hnone : (functionsLoop now interval schedule.functions).1 = [] :=
          List.length_eq_zero.mp hemp
        rw [hnone] at hperm
        simpa [Schedule.pass, pendingInvocations, pendingCalls] using hperm
    · have hkept : ∀ f1 ∈ (schedule.pass now interval).1.functions, ∀ t ∈ f1.timesParsed,
          interval < t - now ∧ ∃ f ∈ schedule.functions, t ∈ f.timesParsed := by
        intro f1 hf1 t ht
        obtain ⟨hlt, hex⟩ :=
          (functionsLoop_pending now interval schedule.functions f1 hf1).2 t ht
        exact ⟨lt_of_lt_Sub t now interval hmin hlt, hex⟩
      have hnd1 : ∀ f1 ∈ (schedule.pass now interval).1.functions,
          ∀ t ∈ f1.timesParsed.tail, next ≤ t := by
        intro f1 hf1 t ht
        have h1 := (hkept f1 hf1 t (List.mem_of_mem_tail ht)).1
        have h2 := hchain.1
        linarith
      have hcov1 : ∀ f1 ∈ (schedule.pass now interval).1.functions, ∀ t ∈ f1.timesParsed,
          ∃ tk ∈ next :: rest, t - tk ≤ interval := by
        intro f1 hf1 t ht
        obtain ⟨hlt, f, hf, htf⟩ := hkept f1 hf1 t ht
        obtain ⟨tk, htk, hle⟩ := hcov f hf t htf
        rw [List.mem_cons] at htk
        rcases htk with htk | htk
        · rw [htk] at hle
          exact absurd hle (not_le.mpr hlt)
        · exact ⟨tk, htk, hle⟩
      obtain ⟨r, hr, hfin, hrc⟩ := ih next (schedule.pass now interval).1 hchain.2 hnd1 hcov1
      refine ⟨(r.1, (schedule.pass now interval).2 ++ r.2), ?_, hfin, ?_⟩
      · rw [reconcileLoop, if_neg (not_le.mpr hpos), if_neg hemp, hr]
      · rw [invocations_append]
        exact (hrc.append_left _).trans hperm

theorem invocations_Run (schedule : Schedule) (clock : Nat → Time) :
    invocations (schedule.Run clock).2 = pendingInvocations schedule.functions := by
  show invocations (runFunctions clock 1 schedule.functions) = _
  rw [invocations, runFunctions_eq, armedCalls_armEvents]
  rfl

/-! ## The execution engine: claims -/

/-- C6: `Schedule.Add(job)` leaves the active set unchanged when `ParseTimes` resolves the
job to no instant; otherwise the active set becomes the old one followed by exactly one new
entry, which has the name, body and specs of the job and carries the resolved instants.  The
other fields of the schedule are never changed. -/
theorem Add_active_set (schedule : Schedule) (zone : Zone) (clock : Nat → Time)
    (run : Func) :
    (ParseTimes zone clock run.Times schedule.SkipMissed = [] →
        (schedule.Add zone clock run).functions = schedule.functions) ∧
      (ParseTimes zone clock run.Times schedule.SkipMissed ≠ [] →
        ∃ entry : Func,
          (schedule.Add zone clock run).functions = schedule.functions ++ [entry] ∧
          entry.Name = run.Name ∧ entry.Fn = run.Fn ∧ entry.Times = run.Times ∧
          entry.timesParsed = ParseTimes zone clock run.Times schedule.SkipMissed) ∧
      (schedule.Add zone clock run).SkipMissed = schedule.SkipMissed ∧
      (schedule.Add zone clock run).ErrEmails = schedule.ErrEmails ∧
      (schedule.Add zone clock run).wg = schedule.wg := by
  unfold Schedule.Add
  by_cases h : ParseTimes zone clock run.Times schedule.SkipMissed = []
  · simp [h]
  · have hl : ¬ (ParseTimes zone clock run.Times schedule.SkipMissed).length = 0 := by
      simpa [List.length_eq_zero] using h
    simp only [hl, if_false, h, false_implies, true_and, ne_eq, not_false_eq_true,
      true_implies, and_true]
    exact ⟨_, rfl, rfl, rfl, rfl, rfl⟩

theorem Add_active_set_witness :
    ParseTimes utcZone (fun _ => wed0905) jobC.Times emptySchedule.SkipMissed = [] ∧
      (emptySchedule.Add utcZone (fun _ => wed0905) jobC).functions = emptySchedule.functions ∧
      ParseTimes utcZone (fun _ => wed0905) jobA.Times emptySchedule.SkipMissed ≠ [] ∧
      ∃ entry : Func,
        (emptySchedule.Add utcZone (fun _ => wed0905) jobA).functions =
          emptySchedule.functions ++ [entry] ∧
        entry.Name = jobA.Name ∧ entry.Fn = jobA.Fn ∧ entry.Times = jobA.Times ∧
        entry.timesParsed = ParseTimes utcZone (fun _ => wed0905) jobA.Times emptySchedule.SkipMissed :=
  ⟨by decide, (Add_active_set emptySchedule utcZone (fun _ => wed0905) jobC).1 (by decide), by decide,
    (Add_active_set emptySchedule utcZone (fun _ => wed0905) jobA).2.1 (by decide)⟩

/-- C7: in one reconciliation pass at `now` with window `interval`, every pending instant
`t` at position `i` of a job's list gets exactly one `handling`: dropped when `i` is not 0
and `t.Sub(now) < 0`, otherwise armed with delay `t.Sub(now)` when `t.Sub(now) <= interval`,
otherwise kept.  The effects of the pass are, job by job and instant by instant, `wg.Add(1)`
and the timer of every armed instant; the new pending list of a job is the list of its kept
instants, and a job stays active when that list is not empty.  An instant 5 minutes after
`now` is armed, with delay 5 minutes, by a pass with a window of 10 minutes. -/
theorem pass_handling (schedule : Schedule) (now : Time) (interval : Duration) :
    (schedule.pass now interval).2 =
        schedule.functions.flatMap (fun fn => armedFrom now interval fn 0 fn.timesParsed) ∧
      (schedule.pass now interval).1.functions =
        schedule.functions.filterMap (fun fn =>
          if (keptFrom now interval 0 fn.timesParsed).length > 0 then
            some { fn with timesParsed := keptFrom now interval 0 fn.timesParsed }
          else none) ∧
      (∀ i : Nat, handling now (Minute * 10) i (now + Minute * 5) =
          Handling.armed (Minute * 5)) ∧
      ∀ fn : Func, timesLoop now (Minute * 10) fn 0 [now + Minute * 5] =
        ([], [Event.wgAdd 1, Event.afterFunc (Minute * 5) fn (now + Minute * 5)]) := by
  have hsub : Time.Sub (now + Minute * 5) now = Minute * 5 := by
    rw [Sub_eq] <;> simp [Minute, Second, minDuration, maxDuration]
  have hh : ∀ i : Nat, handling now (Minute * 10) i (now + Minute * 5) =
      Handling.armed (Minute * 5) := by
    intro i
    simp only [handling, hsub]
    rw [if_neg, if_pos] <;> simp [Minute, Second]
  refine ⟨?_, ?_, hh, ?_⟩
  · simp [Schedule.pass, functionsLoop_eq]
  · simp [Schedule.pass, functionsLoop_eq]
  · intro fn
    simp [timesLoop_eq, keptFrom, armedFrom, hh 0]

/-- The window of a pass.  After a pass at `now` with window `interval`, every instant left
pending lies strictly more than `interval` after `now`; so at a next pass that runs at most
`interval` later the instant is still in the future and is not dropped; and every timer the
pass arms has a delay of at most `interval`.  The delay is not bounded from below. -/
theorem pass_window (schedule : Schedule) (now : Time) (interval : Duration)
    (hint : minDuration ≤ interval) :
    (∀ f ∈ (schedule.pass now interval).1.functions, ∀ t ∈ f.timesParsed,
        interval < t - now ∧
        ∀ next : Time, next - now ≤ interval →
          next < t ∧ ¬ Time.Sub t next < 0 ∧
          ∀ i : Nat, handling next interval i t ≠ Handling.dropped) ∧
      ∀ (d : Duration) (f : Func) (t : Time),
        Event.afterFunc d f t ∈ (schedule.pass now interval).2 →
          d = Time.Sub t now ∧ d ≤ interval := by
  constructor
  · intro f hf t ht
    simp only [Schedule.pass, functionsLoop_eq, List.mem_filterMap] at hf
    obtain ⟨fn, _, hfn⟩ := hf
    split_ifs at hfn
    simp only [Option.some.injEq] at hfn
    subst hfn
    have hk := lt_of_lt_Sub t now interval hint (mem_keptFrom now interval _ 0 t ht).2
    refine ⟨hk, fun next hnext => ?_⟩
    have hlt : next < t := by linarith
    have hns : ¬ Time.Sub t next < 0 := by
      rw [Sub_neg_iff]
      exact not_lt.mpr hlt.le
    refine ⟨hlt, hns, fun i => ?_⟩
    simp only [handling]
    split_ifs with h1 <;> simp
    exact hns h1.2
  · intro d f t h
    simp only [Schedule.pass, functionsLoop_eq, List.mem_flatMap] at h
    obtain ⟨fn, _, hfn⟩ := h
    have := mem_armedFrom now interval fn _ 0 d f t hfn
    exact ⟨this.2.2.1, this.2.2.2⟩

theorem pass_window_witness :
    minDuration ≤ Minute * 10 ∧
      ((⟨false, [], [jobB], 0⟩ : Schedule).pass wed0905 (Minute * 10)).1.functions =
        [{ jobB with timesParsed := [wed0905 + Minute * 20] }] ∧
      ∀ (d : Duration) (f : Func) (t : Time),
        Event.afterFunc d f t ∈
            ((⟨false, [], [jobB], 0⟩ : Schedule).pass wed0905 (Minute * 10)).2 →
          d = Time.Sub t wed0905 ∧ d ≤ Minute * 10 :=
  ⟨by decide, by decide,
    (pass_window ⟨false, [], [jobB], 0⟩ wed0905 (Minute * 10) (by decide)).2⟩

/-- C8: the code at the failing input.  The `testSort` job registered at 12:00:00 with
`SkipMissed = false` is pending at 01:01:01, 22:04:01 and 22:06:01.  The first pass of
`RunHandleSleeps`, on time one second later and with a window of 10 minutes, does not skip
the instant at index 0 and arms 01:01:01 with the delay -10 h 59 min: the invocation runs at
once, 39540 s after it was due, which is later than the interval of 600 s. -/
theorem pass_arms_due_instant_hours_late :
    (emptySchedule.Add utcZone (fun _ => wed1200) testSortJob).functions = [testSortPending] ∧
      testSortPending.timesParsed.head? = some (wed0030 + 1861 * Second) ∧
      ((emptySchedule.Add utcZone (fun _ => wed1200) testSortJob).pass (wed1200 + Second)
          (Minute * 10)).2 =
        [Event.wgAdd 1,
          Event.afterFunc (-(39540 * Second)) testSortPending (wed0030 + 1861 * Second)] ∧
      Time.Sub (wed0030 + 1861 * Second) (wed1200 + Second) = -(39540 * Second) ∧
      -(39540 * Second) < -(Minute * 10) ∧
      handling (wed1200 + Second) (Minute * 10) 0 (wed0030 + 1861 * Second) =
        Handling.armed (-(39540 * Second)) := by
  decide

/-- C10: `Run` arms exactly one invocation for every resolved instant of every active job:
the armed (job, instant) pairs are, in order, each job's resolved instants paired with that
job.  Its effects are, for each of these pairs in turn, `wg.Add(1)` and then the timer, so
the counter is raised by 1 exactly once per armed invocation, before it is scheduled, and
ends raised by their number; the active set is not changed.  For N jobs with one instant
each, the counter is raised N times and N invocations are armed. -/
theorem Run_arms_all (schedule : Schedule) (clock : Nat → Time) :
    armedCalls (schedule.Run clock).2 = pendingCalls schedule.functions ∧
      (schedule.Run clock).2 = armEvents clock 1 (pendingCalls schedule.functions) ∧
      List.count (Event.wgAdd 1) (schedule.Run clock).2 =
        (pendingCalls schedule.functions).length ∧
      (schedule.Run clock).1.wg = schedule.wg + (pendingCalls schedule.functions).length ∧
      (schedule.Run clock).1.functions = schedule.functions ∧
      ((∀ f ∈ schedule.functions, f.timesParsed.length = 1) →
        List.count (Event.wgAdd 1) (schedule.Run clock).2 = schedule.functions.length ∧
        (armedCalls (schedule.Run clock).2).length = schedule.functions.length ∧
        (schedule.Run clock).1.wg = schedule.wg + schedule.functions.length) := by
  have htrace : (schedule.Run clock).2 = armEvents clock 1 (pendingCalls schedule.functions) :=
    runFunctions_eq clock schedule.functions 1
  have hwg : (schedule.Run clock).1.wg =
      schedule.wg + (pendingCalls schedule.functions).length := by
    show schedule.wg + wgAdded (runFunctions clock 1 schedule.functions) = _
    rw [runFunctions_eq, wgAdded_armEvents]
  refine ⟨?_, htrace, ?_, hwg, rfl, ?_⟩
  · rw [htrace, armedCalls_armEvents]
  · rw [htrace, count_wgAdd_armEvents]
  · intro h
    have hlen := pendingCalls_length_of_single schedule.functions h
    refine ⟨?_, ?_, ?_⟩
    · rw [htrace, count_wgAdd_armEvents, hlen]
    · rw [htrace, armedCalls_armEvents, hlen]
    · rw [hwg, hlen]

theorem Run_arms_all_witness :
    (∀ f ∈ (⟨false, [], [jobD, jobD, jobD], 0⟩ : Schedule).functions,
        f.timesParsed.length = 1) ∧
      List.count (Event.wgAdd 1)
          ((⟨false, [], [jobD, jobD, jobD], 0⟩ : Schedule).Run (fun _ => wed0900)).2 =
        (⟨false, [], [jobD, jobD, jobD], 0⟩ : Schedule).functions.length ∧
      (armedCalls
          ((⟨false, [], [jobD, jobD, jobD], 0⟩ : Schedule).Run (fun _ => wed0900)).2).length =
        (⟨false, [], [jobD, jobD, jobD], 0⟩ : Schedule).functions.length ∧
      ((⟨false, [], [jobD, jobD, jobD], 0⟩ : Schedule).Run (fun _ => wed0900)).1.wg =
        (⟨false, [], [jobD, jobD, jobD], 0⟩ : Schedule).wg +
          (⟨false, [], [jobD, jobD, jobD], 0⟩ : Schedule).functions.length :=
  ⟨by decide,
    (Run_arms_all ⟨false, [], [jobD, jobD, jobD], 0⟩ (fun _ => wed0900)).2.2.2.2.2
      (by decide)⟩

/-- C9, as stated, fails: job `a` (09:00:00 and 09:00:10 on Wednesdays) is registered at
09:00:10.5 with `SkipMissed = false`, so both instants are resolved.  `Run` arms both.  The
first pass of `RunHandleSleeps`, one second later and with a window of 10 minutes, arms
09:00:00, drops 09:00:10 and leaves the active set empty, so the loop stops having armed one
invocation where `Run` arms two. -/
theorem RunHandleSleeps_drops_where_Run_arms :
    (emptySchedule.Add utcZone (fun _ => wed090010h) jobA).functions =
        [{ jobA with timesParsed := [wed0900, wed0900 + Second * 10] }] ∧
      ((emptySchedule.Add utcZone (fun _ => wed090010h) jobA).RunHandleSleeps
          [wed090010h + Second] (Minute * 10)).map
          (fun r => (r.1.functions, invocations r.2)) =
        some ([], [(jobA, wed0900)]) ∧
      invocations ((emptySchedule.Add utcZone (fun _ => wed090010h) jobA).Run
          (fun _ => wed090010h + Second)).2 =
        [(jobA, wed0900), (jobA, wed0900 + Second * 10)] ∧
      ∃ r, (emptySchedule.Add utcZone (fun _ => wed090010h) jobA).RunHandleSleeps
            [wed090010h + Second] (Minute * 10) = some r ∧
        r.1.functions = [] ∧
        ¬ List.Perm (invocations r.2)
          (invocations ((emptySchedule.Add utcZone (fun _ => wed090010h) jobA).Run
            (fun _ => wed090010h + Second)).2) :=
  ⟨by decide, by decide, by decide, _, rfl, by decide,
    fun h => absurd h.length_eq (by decide)⟩

/-- C9, amended: let the passes of `RunHandleSleeps` run at `now :: ticks`, each at most
`interval` after the one before, with `interval` positive, and go on until every resolved
instant has come within the window of a pass.  If at the first pass no job has an instant
other than its first that is already past, then the loop ends with an empty active set and
the (job, instant) invocations armed over all passes are a rearrangement of those `Run`
arms: every resolved instant of every active job is armed exactly once, none is dropped. -/
theorem RunHandleSleeps_arms_what_Run_arms (schedule : Schedule) (clock : Nat → Time)
    (interval : Duration) (now : Time) (ticks : List Time)
    (hpos : 0 < interval)
    (hchain : List.Chain (fun a b : Time => b - a ≤ interval) now ticks)
    (hfirst : ∀ f ∈ schedule.functions, ∀ t ∈ f.timesParsed.tail, now ≤ t)
    (hcov : ∀ f ∈ schedule.functions, ∀ t ∈ f.timesParsed,
      ∃ tk ∈ now :: ticks, t - tk ≤ interval) :
    ∃ r, schedule.RunHandleSleeps (now :: ticks) interval = some r ∧ r.1.functions = [] ∧
      List.Perm (invocations r.2) (invocations (schedule.Run clock).2) ∧
      List.Perm (invocations r.2) (pendingInvocations schedule.functions) := by
  obtain ⟨r, hr, hfin, hperm⟩ :=
    reconcileLoop_complete interval hpos ticks now schedule hchain hfirst hcov
  refine ⟨r, ?_, hfin, ?_, hperm⟩
  · rw [Schedule.RunHandleSleeps, if_neg (ne_of_gt hpos)]
    exact hr
  · rw [invocations_Run]
    exact hperm

theorem RunHandleSleeps_arms_what_Run_arms_witness :
    (0 : Duration) < Minute * 10 ∧
      List.Chain (fun a b : Time => b - a ≤ Minute * 10) wed0905 [wed0905 + Minute * 10] ∧
      (∀ f ∈ (⟨false, [], [jobB, jobD], 0⟩ : Schedule).functions,
        ∀ t ∈ f.timesParsed.tail, wed0905 ≤ t) ∧
      (∀ f ∈ (⟨false, [], [jobB, jobD], 0⟩ : Schedule).functions, ∀ t ∈ f.timesParsed,
        ∃ tk ∈ wed0905 :: [wed0905 + Minute * 10], t - tk ≤ Minute * 10) ∧
      ∃ r, (⟨false, [], [jobB, jobD], 0⟩ : Schedule).RunHandleSleeps
            (wed0905 :: [wed0905 + Minute * 10]) (Minute * 10) = some r ∧
        r.1.functions = [] ∧
        List.Perm (invocations r.2)
          (invocations ((⟨false, [], [jobB, jobD], 0⟩ : Schedule).Run
            (fun _ => wed0905)).2) ∧
        List.Perm (invocations r.2)
          (pendingInvocations (⟨false, [], [jobB, jobD], 0⟩ : Schedule).functions) :=
  ⟨by decide, List.Chain.cons (by decide) List.Chain.nil, by decide, by decide,
    RunHandleSleeps_arms_what_Run_arms ⟨false, [], [jobB, jobD], 0⟩ (fun _ => wed0905)
      (Minute * 10) wed0905 [wed0905 + Minute * 10] (by decide)
      (List.Chain.cons (by decide) List.Chain.nil) (by decide) (by decide)⟩

/-! ## One invocation: claims -/

/-- C11: one invocation `execute(job, t)`.  When the body returns an error there is exactly
one log-sink call and exactly one notification-sink call, whose subject is the job's `Name`
followed by " Error" and whose recipients are the schedule's `ErrEmails`.  When the body
returns nil there is no log-sink and no notification-sink call.  When the body faults there
is no notification-sink call and the fault does not leave the invocation.  On all three
paths `wg.Done()` is called exactly once, so the counter goes down by exactly 1. -/
theorem execute_effects (schedule : Schedule) (fn : Func) (t : Time) :
    (∀ msg, fn.Fn = FnResult.err msg →
        logCalls (schedule.execute fn t).2.1 = [msg] ∧
        mailCalls (schedule.execute fn t).2.1 =
          [(fn.Name ++ " Error", msg ++ "\n", schedule.ErrEmails)]) ∧
      (fn.Fn = FnResult.ok →
        logCalls (schedule.execute fn t).2.1 = [] ∧
        mailCalls (schedule.execute fn t).2.1 = []) ∧
      (fn.Fn = FnResult.fault →
        mailCalls (schedule.execute fn t).2.1 = [] ∧
        (schedule.execute fn t).2.2 = false) ∧
      doneCalls (schedule.execute fn t).2.1 = 1 ∧
      (schedule.execute fn t).1.wg = schedule.wg - 1 ∧
      (schedule.execute fn t).2.2 = false := by
  obtain ⟨name, body, times, parsed⟩ := fn
  cases body <;>
    simp [Schedule.execute, CatchAndRecover, logCalls, mailCalls, doneCalls]

theorem execute_effects_witness :
    jobE.Fn = FnResult.err "boom" ∧
      logCalls (mailSchedule.execute jobE wed0905).2.1 = ["boom"] ∧
      mailCalls (mailSchedule.execute jobE wed0905).2.1 =
        [(jobE.Name ++ " Error", "boom" ++ "\n", mailSchedule.ErrEmails)] ∧
      jobD.Fn = FnResult.ok ∧
      logCalls (mailSchedule.execute jobD wed0905).2.1 = [] ∧
      mailCalls (mailSchedule.execute jobD wed0905).2.1 = [] ∧
      jobF.Fn = FnResult.fault ∧
      mailCalls (mailSchedule.execute jobF wed0905).2.1 = [] ∧
      (mailSchedule.execute jobF wed0905).2.2 = false :=
  ⟨rfl, ((execute_effects mailSchedule jobE wed0905).1 "boom" rfl).1,
    ((execute_effects mailSchedule jobE wed0905).1 "boom" rfl).2, rfl,
    ((execute_effects mailSchedule jobD wed0905).2.1 rfl).1,
    ((execute_effects mailSchedule jobD wed0905).2.1 rfl).2, rfl,
    ((execute_effects mailSchedule jobF wed0905).2.2.1 rfl).1,
    ((execute_effects mailSchedule jobF wed0905).2.2.1 rfl).2⟩


/-! ## The reconciliation loop: claims -/

/-- C12: `RunHandleSleeps` called with `interval = 0` runs with a window of 10 minutes
(600 s): it does exactly what a call with `interval = 10 minutes` does, pass by pass, with
the same schedule and the same effects; any other interval is used unchanged. -/
theorem RunHandleSleeps_default_interval (schedule : Schedule) (ticks : List Time) :
    schedule.RunHandleSleeps ticks 0 = schedule.RunHandleSleeps ticks (Minute * 10) ∧
      schedule.RunHandleSleeps ticks 0 = reconcileLoop (Minute * 10) ticks schedule ∧
      Minute * 10 = 600 * Second ∧
      ∀ interval : Duration, interval ≠ 0 →
        schedule.RunHandleSleeps ticks interval = reconcileLoop interval ticks schedule := by
  refine ⟨?_, ?_, by decide, ?_⟩
  · simp [Schedule.RunHandleSleeps, Minute, Second]
  · simp [Schedule.RunHandleSleeps]
  · intro interval h
    simp [Schedule.RunHandleSleeps, h]

theorem RunHandleSleeps_default_interval_witness :
    (⟨false, [], [jobB, jobD], 0⟩ : Schedule).RunHandleSleeps
        [wed0905, wed0905 + Minute * 10] 0 =
      (⟨false, [], [jobB, jobD], 0⟩ : Schedule).RunHandleSleeps
        [wed0905, wed0905 + Minute * 10] (Minute * 10) ∧
    (Minute * 5 ≠ 0 ∧
      (⟨false, [], [jobB, jobD], 0⟩ : Schedule).RunHandleSleeps
          [wed0905, wed0905 + Minute * 10] (Minute * 5) =
        reconcileLoop (Minute * 5) [wed0905, wed0905 + Minute * 10]
          ⟨false, [], [jobB, jobD], 0⟩) :=
  ⟨(RunHandleSleeps_default_interval ⟨false, [], [jobB, jobD], 0⟩
      [wed0905, wed0905 + Minute * 10]).1,
    by decide,
    (RunHandleSleeps_default_interval ⟨false, [], [jobB, jobD], 0⟩
      [wed0905, wed0905 + Minute * 10]).2.2.2 (Minute * 5) (by decide)⟩

theorem noEmptyJob_pass (schedule : Schedule) (now : Time) (interval : Duration) :
    (schedule.pass now interval).1.noEmptyJob := fun f hf =>
  (functionsLoop_pending now interval schedule.functions f hf).1

theorem noEmptyJob_reconcileLoop (interval : Duration) (ticks : List Time) :
    ∀ schedule : Schedule, schedule.noEmptyJob →
      ∀ r, reconcileLoop interval ticks schedule = some r → r.1.noEmptyJob := by
  induction ticks with
  | nil =>
    intro schedule h r hr
    simp only [reconcileLoop, Option.some.injEq] at hr
    rw [← hr]
    exact h
  | cons now rest ih =>
    intro schedule _ r hr
    rw [reconcileLoop] at hr
    split_ifs at hr with h1 h2
    · simp only [Option.some.injEq] at hr
      rw [← hr]
      exact noEmptyJob_pass schedule now interval
    · cases hrec : reconcileLoop interval rest (schedule.pass now interval).1 with
      | none => rw [hrec] at hr; exact absurd hr (by simp)
      | some r1 =>
        rw [hrec] at hr
        simp only [Option.some.injEq] at hr
        rw [← hr]
        exact ih _ (noEmptyJob_pass schedule now interval) r1 hrec

/-- C13: no job in the active set has an empty list of pending instants.  This holds for a
schedule with no job, is preserved by `Add`, holds after every reconciliation pass (a job
left without pending instants is removed), and so is preserved by the whole reconciliation
loop of `RunHandleSleeps`, however many passes have run. -/
theorem noEmptyJob_invariant (schedule : Schedule) (zone : Zone) (clock : Nat → Time)
    (run : Func)
    (now : Time) (interval : Duration) (ticks : List Time) :
    emptySchedule.noEmptyJob ∧
      (schedule.functions = [] → schedule.noEmptyJob) ∧
      (schedule.noEmptyJob → (schedule.Add zone clock run).noEmptyJob) ∧
      (schedule.pass now interval).1.noEmptyJob ∧
      (schedule.noEmptyJob →
        ∀ r, schedule.RunHandleSleeps ticks interval = some r → r.1.noEmptyJob) := by
  refine ⟨?_, ?_, ?_, noEmptyJob_pass schedule now interval, ?_⟩
  · intro f hf
    exact absurd hf (List.not_mem_nil f)
  · intro h f hf
    rw [h] at hf
    exact absurd hf (List.not_mem_nil f)
  · intro h f hf
    unfold Schedule.Add at hf
    simp only at hf
    split_ifs at hf with hl
    · exact h f hf
    · simp only [List.mem_append, List.mem_singleton] at hf
      rcases hf with hf | hf
      · exact h f hf
      · rw [hf]
        simpa [List.length_eq_zero] using hl
  · intro h r hr
    exact noEmptyJob_reconcileLoop _ ticks schedule h r hr

theorem noEmptyJob_invariant_witness :
    (⟨false, [], [jobB, jobD], 0⟩ : Schedule).noEmptyJob ∧
      ((⟨false, [], [jobB, jobD], 0⟩ : Schedule).Add utcZone (fun _ => wed0905) jobA).noEmptyJob ∧
      ((⟨false, [], [jobB, jobD], 0⟩ : Schedule).Add utcZone (fun _ => wed0905) jobC).noEmptyJob ∧
      (⟨false, [], [jobB, jobD], 0⟩ : Schedule).RunHandleSleeps [wed0905] (Minute * 10) =
        some (⟨false, [], [{ jobB with timesParsed := [wed0905 + Minute * 20] }], 2⟩,
          [Event.wgAdd 1, Event.afterFunc Second jobB (wed0905 + Second),
            Event.wgAdd 1, Event.afterFunc 0 jobD wed0905]) ∧
      (⟨false, [], [{ jobB with timesParsed := [wed0905 + Minute * 20] }], 2⟩ :
        Schedule).noEmptyJob :=
  have h : (⟨false, [], [jobB, jobD], 0⟩ : Schedule).noEmptyJob := by
    intro f hf
    simp only [List.mem_cons, List.mem_singleton, List.not_mem_nil, or_false] at hf
    rcases hf with hf | hf <;> rw [hf] <;> decide
  ⟨h,
    (noEmptyJob_invariant ⟨false, [], [jobB, jobD], 0⟩ utcZone (fun _ => wed0905) jobA wed0905
      (Minute * 10) [wed0905]).2.2.1 h,
    (noEmptyJob_invariant ⟨false, [], [jobB, jobD], 0⟩ utcZone (fun _ => wed0905) jobC wed0905
      (Minute * 10) [wed0905]).2.2.1 h,
    by decide,
    (noEmptyJob_invariant ⟨false, [], [jobB, jobD], 0⟩ utcZone (fun _ => wed0905) jobA wed0905
      (Minute * 10) [wed0905]).2.2.2.2 h
      (⟨false, [], [{ jobB with timesParsed := [wed0905 + Minute * 20] }], 2⟩,
        [Event.wgAdd 1, Event.afterFunc Second jobB (wed0905 + Second),
          Event.wgAdd 1, Event.afterFunc 0 jobD wed0905]) (by decide)⟩


theorem droppedFrom_cons (now : Time) (interval : Duration) (i : Nat) (a : Time)
    (ts : List Time) :
    droppedFrom now interval i (a :: ts) =
      if handling now interval i a = Handling.dropped then
        a :: droppedFrom now interval (i + 1) ts
      else droppedFrom now interval (i + 1) ts := by
  simp only [droppedFrom, List.enumFrom_cons, List.filter_cons, decide_eq_true_eq]
  split_ifs <;> rfl

theorem keptFrom_sublist (now : Time) (interval : Duration) (times : List Time) (i : Nat) :
    List.Sublist (keptFrom now interval i times) times := by
  induction times generalizing i with
  | nil => exact List.Sublist.refl _
  | cons a ts ih =>
    rw [keptFrom_cons]
    split_ifs
    · exact (ih (i + 1)).cons₂ a
    · exact (ih (i + 1)).cons a

theorem armed_sublist (now : Time) (interval : Duration) (fn : Func) (times : List Time)
    (i : Nat) :
    List.Sublist ((armedCalls (armedFrom now interval fn i times)).map Prod.snd) times := by
  induction times generalizing i with
  | nil => exact List.Sublist.refl _
  | cons a ts ih =>
    rw [armedFrom_cons, armedCalls_append, List.map_append]
    cases handling now interval i a with
    | dropped => exact (ih (i + 1)).cons a
    | armed d => exact (ih (i + 1)).cons₂ a
    | kept => exact (ih (i + 1)).cons a

/-- In one pass every pending instant of a job is armed, dropped or kept, and only one of
these. -/
theorem pass_counts (now : Time) (interval : Duration) (fn : Func) (times : List Time)
    (i : Nat) :
    (armedCalls (armedFrom now interval fn i times)).length +
        (droppedFrom now interval i times).length + (keptFrom now interval i times).length =
      times.length := by
  induction times generalizing i with
  | nil => rfl
  | cons a ts ih =>
    have h := ih (i + 1)
    rw [armedFrom_cons, armedCalls_append, List.length_append, droppedFrom_cons,
      keptFrom_cons, List.length_cons]
    cases handling now interval i a with
    | dropped =>
      simp only [armedCalls, List.length_nil, if_true, reduceCtorEq, if_false,
        List.length_cons]
      omega
    | armed d =>
      simp only [armedCalls, List.length_cons, List.length_nil, reduceCtorEq, if_false]
      omega
    | kept =>
      simp only [armedCalls, List.length_nil, if_true, reduceCtorEq, if_false,
        List.length_cons]
      omega

theorem subperm_append {α : Type} (a b x y : List α) (h1 : List.Subperm a x)
    (h2 : List.Subperm b y) : List.Subperm (a ++ b) (x ++ y) :=
  ((List.subperm_append_right b).mpr h1).trans ((List.subperm_append_left x).mpr h2)

/-- The invocations a pass arms for a job and the instants it keeps for it are taken from
the pending list of the job, each pending instant at most once. -/
theorem job_pass_subperm (now : Time) (interval : Duration) (fn : Func) (times : List Time)
    (i : Nat) :
    List.Subperm
      (invocations (armedFrom now interval fn i times) ++
        (keptFrom now interval i times).map (fun t => (jobOf fn, t)))
      (times.map (fun t => (jobOf fn, t))) := by
  induction times generalizing i with
  | nil => exact List.Subperm.refl _
  | cons a ts ih =>
    have hrest := ih (i + 1)
    rw [armedFrom_cons, keptFrom_cons, invocations_append, List.map_cons]
    cases hh : handling now interval i a with
    | dropped =>
      simp only [invocations, armedCalls, List.map_nil, reduceCtorEq, if_false,
        List.nil_append]
      exact hrest.cons_right _
    | armed d =>
      simp only [invocations, armedCalls, List.map_cons, List.map_nil, reduceCtorEq, if_false,
        List.cons_append, List.nil_append]
      exact (List.subperm_cons _).mpr hrest
    | kept =>
      simp only [invocations, armedCalls, List.map_nil, if_true, List.map_cons,
        List.nil_append]
      exact (List.perm_middle.subperm).trans ((List.subperm_cons _).mpr hrest)

theorem functionsLoop_subperm (now : Time) (interval : Duration) (fns : List Func) :
    List.Subperm
      (invocations (functionsLoop now interval fns).2 ++
        pendingInvocations (functionsLoop now interval fns).1)
      (pendingInvocations fns) := by
  induction fns with
  | nil => exact List.Subperm.refl _
  | cons fn rest ih =>
    have hjob := job_pass_subperm now interval fn fn.timesParsed 0
    have hnew : pendingInvocations (functionsLoop now interval (fn :: rest)).1 =
        (keptFrom now interval 0 fn.timesParsed).map (fun t => (jobOf fn, t)) ++
          pendingInvocations (functionsLoop now interval rest).1 := by
      rw [functionsLoop_cons]
      split_ifs with hk
      · rw [pendingInvocations_cons]
        rfl
      · have hnil : keptFrom now interval 0 fn.timesParsed = [] :=
          List.length_eq_zero.mp (by omega)
        rw [hnil]
        rfl
    have htr : (functionsLoop now interval (fn :: rest)).2 =
        armedFrom now interval fn 0 fn.timesParsed ++ (functionsLoop now interval rest).2 := by
      rw [functionsLoop_cons]
    rw [hnew, htr, invocations_append, pendingInvocations_cons]
    exact (perm_interleave _ _ _ _ _ _ (List.Perm.refl _) (List.Perm.refl _)).subperm.trans
      (subperm_append _ _ _ _ hjob ih)

/-- With a positive interval the loop never panics, and over any passes the invocations
armed so far together with those still pending are taken from the invocations pending at
the start, each at most once. -/
theorem reconcileLoop_subperm (interval : Duration) (hpos : 0 < interval)
    (ticks : List Time) :
    ∀ schedule : Schedule,
      ∃ r, reconcileLoop interval ticks schedule = some r ∧
        List.Subperm (invocations r.2 ++ pendingInvocations r.1.functions)
          (pendingInvocations schedule.functions) := by
  induction ticks with
  | nil =>
    intro schedule
    exact ⟨(schedule, []), rfl, List.Subperm.refl _⟩
  | cons now rest ih =>
    intro schedule
    have hpass := functionsLoop_subperm now interval schedule.functions
    by_cases hemp : (schedule.pass now interval).1.functions.length = 0
    · refine ⟨schedule.pass now interval, ?_, hpass⟩
      rw [reconcileLoop, if_neg (not_le.mpr hpos), if_pos hemp]
    · obtain ⟨r, hr, hsub⟩ := ih (schedule.pass now interval).1
      refine ⟨(r.1, (schedule.pass now interval).2 ++ r.2), ?_, ?_⟩
      · rw [reconcileLoop, if_neg (not_le.mpr hpos), if_neg hemp, hr]
      · rw [invocations_append, List.append_assoc]
        exact ((List.subperm_append_left _).mpr hsub).trans hpass

/-- C14: each resolved instant of a job is armed at most once.  In a pass the new pending
list of a job is a sub-list of the old one, the armed instants are a sub-list of the old one,
and the numbers of armed, dropped and kept instants add up to the number pending before
the pass.  Over one pass, and over any sequence of passes at arbitrary tick times, the
invocations armed together with the invocations still pending are taken from the
invocations pending at the start, each of them at most once. -/
theorem armed_at_most_once (schedule : Schedule) (now : Time) (interval : Duration)
    (fn : Func) (times : List Time) (ticks : List Time) :
    List.Sublist (timesLoop now interval fn 0 times).1 times ∧
      List.Sublist ((armedCalls (timesLoop now interval fn 0 times).2).map Prod.snd) times ∧
      (armedCalls (timesLoop now interval fn 0 times).2).length +
          (droppedFrom now interval 0 times).length +
          (timesLoop now interval fn 0 times).1.length = times.length ∧
      List.Subperm
        (invocations (schedule.pass now interval).2 ++
          pendingInvocations (schedule.pass now interval).1.functions)
        (pendingInvocations schedule.functions) ∧
      (0 < interval →
        ∃ r, reconcileLoop interval ticks schedule = some r ∧
          List.Subperm (invocations r.2 ++ pendingInvocations r.1.functions)
            (pendingInvocations schedule.functions)) := by
  rw [timesLoop_eq]
  exact ⟨keptFrom_sublist now interval times 0, armed_sublist now interval fn times 0,
    pass_counts now interval fn times 0, functionsLoop_subperm now interval schedule.functions,
    fun hpos => reconcileLoop_subperm interval hpos ticks schedule⟩

theorem armed_at_most_once_witness :
    (0 : Duration) < Minute * 10 ∧
      ∃ r, reconcileLoop (Minute * 10) [wed0905, wed0905 + Minute * 10]
            ⟨false, [], [jobB, jobD], 0⟩ = some r ∧
        List.Subperm
          (invocations r.2 ++ pendingInvocations r.1.functions)
          (pendingInvocations (⟨false, [], [jobB, jobD], 0⟩ : Schedule).functions) :=
  ⟨by decide,
    (armed_at_most_once ⟨false, [], [jobB, jobD], 0⟩ wed0905 (Minute * 10) jobB
      jobB.timesParsed [wed0905, wed0905 + Minute * 10]).2.2.2.2 (by decide)⟩


theorem mem_armedCalls (trace : List Event) (f : Func) (t : Time)
    (h : (f, t) ∈ armedCalls trace) : ∃ d, Event.afterFunc d f t ∈ trace := by
  induction trace with
  | nil => simp [armedCalls] at h
  | cons e rest ih =>
    cases e with
    | wgAdd n =>
      obtain ⟨d, hd⟩ := ih h
      exact ⟨d, List.mem_cons_of_mem _ hd⟩
    | afterFunc d0 f0 t0 =>
      simp only [armedCalls, List.mem_cons, Prod.mk.injEq] at h
      rcases h with h | h
      · exact ⟨d0, by rw [h.1, h.2]; exact List.mem_cons_self _ _⟩
      · obtain ⟨d, hd⟩ := ih h
        exact ⟨d, List.mem_cons_of_mem _ hd⟩

theorem mem_armed_instants (now : Time) (interval : Duration) (fn : Func) (times : List Time)
    (i : Nat) (t : Time)
    (h : t ∈ (armedCalls (armedFrom now interval fn i times)).map Prod.snd) :
    t ∈ times ∧ Time.Sub t now ≤ interval := by
  rw [List.mem_map] at h
  obtain ⟨c, hc, hct⟩ := h
  obtain ⟨d, hd⟩ := mem_armedCalls _ c.1 c.2 hc
  have hm := mem_armedFrom now interval fn times i d c.1 c.2 hd
  rw [hct] at hm
  exact ⟨hm.2.1, hm.2.2.1 ▸ hm.2.2.2⟩

theorem lt_of_Sub_lt_Sub (t k u : Time) (h : Time.Sub t u < Time.Sub k u) : t < k := by
  unfold Time.Sub minDuration maxDuration at h
  unfold Time Duration at *
  split_ifs at h <;> omega

/-- C15: in a reconciliation pass over a pending list that is sorted ascending, the armed
instants, in the order they are armed, are sorted ascending, the list kept pending is sorted
ascending, and every armed instant is strictly earlier than every instant kept pending; so
whatever a later pass arms from the kept list is strictly later than everything this pass
armed. -/
theorem pass_keeps_order (now : Time) (interval : Duration) (fn : Func) (times : List Time)
    (hs : List.Sorted (fun a b => a ≤ b) times) :
    List.Sorted (fun a b => a ≤ b)
        ((armedCalls (timesLoop now interval fn 0 times).2).map Prod.snd) ∧
      List.Sorted (fun a b => a ≤ b) (timesLoop now interval fn 0 times).1 ∧
      (∀ a ∈ (armedCalls (timesLoop now interval fn 0 times).2).map Prod.snd,
        ∀ k ∈ (timesLoop now interval fn 0 times).1, a < k) ∧
      ∀ (later : Time) (window : Duration) (fn1 : Func),
        ∀ b ∈ (armedCalls (timesLoop later window fn1 0
            (timesLoop now interval fn 0 times).1).2).map Prod.snd,
          ∀ a ∈ (armedCalls (timesLoop now interval fn 0 times).2).map Prod.snd, a < b := by
  have hlt : ∀ a ∈ (armedCalls (armedFrom now interval fn 0 times)).map Prod.snd,
      ∀ k ∈ keptFrom now interval 0 times, a < k := by
    intro a ha k hk
    have h1 := (mem_armed_instants now interval fn times 0 a ha).2
    have h2 := (mem_keptFrom now interval times 0 k hk).2
    exact lt_of_Sub_lt_Sub a k now (lt_of_le_of_lt h1 h2)
  simp only [timesLoop_eq]
  refine ⟨List.Pairwise.sublist (armed_sublist now interval fn times 0) hs,
    List.Pairwise.sublist (keptFrom_sublist now interval times 0) hs, hlt, ?_⟩
  intro later window fn1 b hb a ha
  exact hlt a ha b (mem_armed_instants later window fn1 _ 0 b hb).1

theorem pass_keeps_order_witness :
    List.Sorted (fun a b : Time => a ≤ b) jobB.timesParsed ∧
      (armedCalls (timesLoop wed0905 (Minute * 10) jobB 0 jobB.timesParsed).2).map Prod.snd =
        [wed0905 + Second] ∧
      (timesLoop wed0905 (Minute * 10) jobB 0 jobB.timesParsed).1 = [wed0905 + Minute * 20] ∧
      ∀ a ∈ (armedCalls (timesLoop wed0905 (Minute * 10) jobB 0 jobB.timesParsed).2).map
          Prod.snd,
        ∀ k ∈ (timesLoop wed0905 (Minute * 10) jobB 0 jobB.timesParsed).1, a < k :=
  ⟨by decide, by decide, by decide,
    (pass_keeps_order wed0905 (Minute * 10) jobB jobB.timesParsed (by decide)).2.2.1⟩


/-! ## Time of day: lemmas and claims -/

theorem secondOfDay_eq (zone : Zone) (now : Time) :
    Time.secondOfDay zone now =
      Time.Hour zone now * 3600 + Time.Minute zone now * 60 + Time.Second zone now := by
  unfold Time.secondOfDay Time.Hour Time.Minute Time.Second
  generalize Time.localSec zone now = L
  omega

theorem clock_inRange (zone : Zone) (now : Time) :
    (0 ≤ Time.Hour zone now ∧ Time.Hour zone now ≤ 23) ∧
      (0 ≤ Time.Minute zone now ∧ Time.Minute zone now ≤ 59) ∧
      (0 ≤ Time.Second zone now ∧ Time.Second zone now ≤ 59) := by
  unfold Time.Hour Time.Minute Time.Second
  generalize Time.localSec zone now = L
  omega

theorem timeOfDayBefore_iff_seconds (zone : Zone) (t : RunTime) (now : Time)
    (hr : t.inRange) :
    timeOfDayBefore zone t now ↔
      t.Hour * 3600 + t.Minute * 60 + t.Second < Time.secondOfDay zone now := by
  have hc := clock_inRange zone now
  rw [secondOfDay_eq]
  unfold timeOfDayBefore
  unfold RunTime.inRange at hr
  generalize Time.Hour zone now = H at *
  generalize Time.Minute zone now = M at *
  generalize Time.Second zone now = S at *
  omega

/-- C16: `past(t, now)` is true exactly when the triple (Hour, Minute, Second) of the spec
is strictly smaller, in the lexicographic order, than that of `now`; a spec whose
time-of-day equals that of `now` is not past; and for a spec with `Hour` in 0..23 and
`Minute`, `Second` in 0..59 this is the same as
`Hour*3600 + Minute*60 + Second <` the current second of the day. -/
theorem past_lexicographic (zone : Zone) (t : RunTime) (now : Time) :
    (past zone t now = true ↔
        toLex (t.Hour, toLex (t.Minute, t.Second)) <
          toLex (Time.Hour zone now, toLex (Time.Minute zone now, Time.Second zone now))) ∧
      (t.Hour = Time.Hour zone now → t.Minute = Time.Minute zone now →
        t.Second = Time.Second zone now → past zone t now = false) ∧
      (t.inRange →
        (past zone t now = true ↔
          t.Hour * 3600 + t.Minute * 60 + t.Second < Time.secondOfDay zone now)) := by
  refine ⟨?_, ?_, ?_⟩
  · rw [past_iff]
    simp only [Prod.Lex.lt_iff, timeOfDayBefore]
    constructor
    · rintro (h1 | h1 | h1)
      · exact Or.inl h1
      · exact Or.inr ⟨h1.1, Or.inl h1.2⟩
      · exact Or.inr ⟨h1.1, Or.inr ⟨h1.2.1, h1.2.2⟩⟩
    · rintro (h1 | ⟨h1, h2 | h2⟩)
      · exact Or.inl h1
      · exact Or.inr (Or.inl ⟨h1, h2⟩)
      · exact Or.inr (Or.inr ⟨h1, h2.1, h2.2⟩)
  · intro hh hm hs
    cases hp : past zone t now with
    | false => rfl
    | true =>
      have hb := (past_iff zone t now).mp hp
      unfold timeOfDayBefore at hb
      omega
  · intro hr
    rw [past_iff]
    exact timeOfDayBefore_iff_seconds zone t now hr

theorem past_lexicographic_witness :
    ((⟨[3], 9, 5, 0⟩ : RunTime).Hour = Time.Hour utcZone wed0905 ∧
        (⟨[3], 9, 5, 0⟩ : RunTime).Minute = Time.Minute utcZone wed0905 ∧
        (⟨[3], 9, 5, 0⟩ : RunTime).Second = Time.Second utcZone wed0905) ∧
      past utcZone ⟨[3], 9, 5, 0⟩ wed0905 = false ∧
      (⟨[3], 9, 0, 10⟩ : RunTime).inRange ∧
      (past utcZone ⟨[3], 9, 0, 10⟩ wed0905 = true ↔
        (⟨[3], 9, 0, 10⟩ : RunTime).Hour * 3600 + (⟨[3], 9, 0, 10⟩ : RunTime).Minute * 60 +
          (⟨[3], 9, 0, 10⟩ : RunTime).Second < Time.secondOfDay utcZone wed0905) ∧
      past utcZone ⟨[3], 9, 0, 10⟩ wed0905 = true :=
  ⟨by decide,
    (past_lexicographic utcZone ⟨[3], 9, 5, 0⟩ wed0905).2.1 (by decide) (by decide)
      (by decide),
    by decide, (past_lexicographic utcZone ⟨[3], 9, 0, 10⟩ wed0905).2.2 (by decide),
    by decide⟩

theorem norm_inRange (hi lo base : Int) (h0 : 0 ≤ lo) (h1 : lo < base) :
    norm hi lo base = (hi, lo) := by
  unfold norm
  simp only
  rw [if_neg (not_lt.mpr h0)]
  simp only
  rw [if_neg (not_le.mpr h1)]

/-- In a zone with one offset, for a clock reading of the system clock and a spec in range,
`time.Date` neither carries nor wraps: the instant is the time-of-day of the spec on the
local day of `now`. -/
theorem instantOf_fixed (zone : Zone) (o : Int) (hz : zone.fixedOffset o) (now : Time)
    (hnow : Time.representable now) (t : RunTime) (hr : t.inRange) :
    instantOf zone now t =
      (Time.dayNo zone now * 86400 + t.Hour * 3600 + t.Minute * 60 + t.Second - o) *
        1000000000 := by
  obtain ⟨hoff, ho1, ho2⟩ := hz
  obtain ⟨⟨hh0, hh1⟩, ⟨hm0, hm1⟩, ⟨hs0, hs1⟩⟩ := hr
  have hD : Time.dayNo zone now = (Time.unixSec now + o) / 86400 := by
    unfold Time.dayNo Time.localSec
    rw [hoff]
  unfold Time.representable at hnow
  simp only [instantOf, Date, norm_inRange _ _ 60 hs0 (by omega),
    norm_inRange _ _ 60 hm0 (by omega), norm_inRange _ _ 24 hh0 (by omega), hoff]
  generalize Time.dayNo zone now = D at *
  generalize Time.unixSec now = U at *
  generalize t.Hour = h at *
  generalize t.Minute = m at *
  generalize t.Second = s at *
  unfold wrapInt64
  unfold Time at *
  split_ifs <;> omega

theorem instantOf_fields (zone : Zone) (o : Int) (hz : zone.fixedOffset o) (now : Time)
    (hnow : Time.representable now) (t : RunTime) (hr : t.inRange) :
    Time.dayNo zone (instantOf zone now t) = Time.dayNo zone now ∧
      Time.Nanosecond (instantOf zone now t) = 0 ∧
      Time.Hour zone (instantOf zone now t) = t.Hour ∧
      Time.Minute zone (instantOf zone now t) = t.Minute ∧
      Time.Second zone (instantOf zone now t) = t.Second ∧
      Time.secondOfDay zone (instantOf zone now t) =
        t.Hour * 3600 + t.Minute * 60 + t.Second := by
  rw [instantOf_fixed zone o hz now hnow t hr]
  obtain ⟨hoff, _, _⟩ := hz
  unfold RunTime.inRange at hr
  generalize Time.dayNo zone now = D at *
  unfold Time.secondOfDay Time.Hour Time.Minute Time.Second Time.dayNo Time.localSec
    Time.Nanosecond Time.unixSec
  simp only [hoff]
  unfold Time at *
  omega

theorem instantOf_lt (zone : Zone) (o : Int) (hz : zone.fixedOffset o) (now : Time)
    (hnow : Time.representable now) (t1 t2 : RunTime) (h1 : t1.inRange) (h2 : t2.inRange)
    (h : Time.secondOfDay zone (instantOf zone now t1) <
      Time.secondOfDay zone (instantOf zone now t2)) :
    instantOf zone now t1 < instantOf zone now t2 := by
  rw [(instantOf_fields zone o hz now hnow t1 h1).2.2.2.2.2,
    (instantOf_fields zone o hz now hnow t2 h2).2.2.2.2.2] at h
  rw [instantOf_fixed zone o hz now hnow t1 h1, instantOf_fixed zone o hz now hnow t2 h2]
  generalize Time.dayNo zone now = D at *
  unfold Time at *
  omega

theorem mem_futureLoop (zone : Zone) (now : Time) (skipMissed : Bool) (ts : List RunTime)
    (i : Nat) (x : Time) (h : x ∈ futureLoop zone now skipMissed i ts) :
    ∃ t ∈ ts, x = instantOf zone now t := by
  induction ts generalizing i with
  | nil => simp [futureLoop] at h
  | cons t ts ih =>
    rw [futureLoop] at h
    split_ifs at h
    · rw [List.mem_cons] at h
      rcases h with h | h
      · exact ⟨t, List.mem_cons_self _ _, h⟩
      · obtain ⟨u, hu, hx⟩ := ih (i + 1) h
        exact ⟨u, List.mem_cons_of_mem _ hu, hx⟩
    · obtain ⟨u, hu, hx⟩ := ih (i + 1) h
      exact ⟨u, List.mem_cons_of_mem _ hu, hx⟩

theorem sorted_of_ParseTimes (zone : Zone) (clock : Nat → Time) (times : List RunTime)
    (skipMissed : Bool) :
    List.Sorted (fun a b => a ≤ b) (ParseTimes zone clock times skipMissed) := by
  unfold ParseTimes
  simp only
  split_ifs
  · exact List.sorted_nil
  · exact sortSlice_sorted _

theorem mem_ParseTimes (zone : Zone) (clock : Nat → Time) (wd : Int)
    (hday : ∀ k, Time.Weekday zone (clock k) = wd) (times : List RunTime) (skipMissed : Bool)
    (x : Time) (h : x ∈ ParseTimes zone clock times skipMissed) :
    ∃ t ∈ times, wd ∈ t.Weekdays ∧ x = instantOf zone (clock times.length) t := by
  rw [ParseTimes_eq zone clock wd hday] at h
  split_ifs at h
  · exact absurd h (List.not_mem_nil x)
  · rw [mem_sortSlice] at h
    obtain ⟨t, ht, hx⟩ := mem_futureLoop zone _ _ _ 0 x h
    have hm := (mem_matching wd times t).mp ht
    exact ⟨t, hm.1, hm.2, hx⟩

/-- Fields outside their ranges are carried by `time.Date` into the next unit: the spec
25:61:-5 resolved on Wednesday 2024-01-03 gives Thursday 2024-01-04 02:00:55. -/
theorem ParseTimes_carries_into_next_day :
    ParseTimes utcZone (fun _ => wed1200) [⟨[3], 25, 61, -5⟩] true = [1704333655000000000] ∧
      Time.Weekday utcZone 1704333655000000000 = 4 ∧
      Time.Hour utcZone 1704333655000000000 = 2 ∧
      Time.Minute utcZone 1704333655000000000 = 0 ∧
      Time.Second utcZone 1704333655000000000 = 55 := by
  decide

/-- C17, as stated, fails: in New York on Sunday 2024-03-10 the wall clock jumps from
02:00 to 03:00.  At 01:45 the spec 02:30 (in range, scheduled on Sundays, not past) is
resolved by `time.Date` to 06:30 UTC, which is 01:30 on the local clock: the returned
instant has the hour of no spec of the input. -/
theorem ParseTimes_gap_hour_of_no_spec :
    (∀ k : Nat, Time.Weekday newYork ((fun _ => sun0145) k) = 0) ∧
      (∀ t ∈ [(⟨[0], 2, 30, 0⟩ : RunTime)], t.inRange) ∧
      (Time.Hour newYork sun0145 = 1 ∧ Time.Minute newYork sun0145 = 45) ∧
      ParseTimes newYork (fun _ => sun0145) [⟨[0], 2, 30, 0⟩] true = [1710052200000000000] ∧
      ParseTimes newYork (fun _ => sun0145) [⟨[0], 2, 30, 0⟩] false = [1710052200000000000] ∧
      (Time.Hour newYork 1710052200000000000 = 1 ∧
        Time.Minute newYork 1710052200000000000 = 30) ∧
      ¬ ∀ x ∈ ParseTimes newYork (fun _ => sun0145) [⟨[0], 2, 30, 0⟩] true,
        Time.dayNo newYork x = Time.dayNo newYork ((fun _ => sun0145) 1) ∧
        Time.Nanosecond x = 0 ∧
        ∃ t ∈ [(⟨[0], 2, 30, 0⟩ : RunTime)], (0 : Int) ∈ t.Weekdays ∧
          Time.Hour newYork x = t.Hour ∧ Time.Minute newYork x = t.Minute ∧
          Time.Second newYork x = t.Second :=
  ⟨fun _ => by beta_reduce; decide, by decide, by decide, by decide, by decide, by decide,
    by decide⟩

/-- C17, amended: when the local zone keeps one offset at all times (no daylight-saving or
other transition) and the clock reading is one the system clock can deliver, then for specs
with `Hour` in 0..23 and `Minute`, `Second` in 0..59 every instant `ParseTimes` returns lies
on the civil day of the current local date (same year, month and day), has zero
nanoseconds, and has the `Hour`, `Minute` and `Second` of a spec of the input whose
`Weekdays` contain today's weekday. -/
theorem ParseTimes_today (zone : Zone) (o : Int) (hz : zone.fixedOffset o)
    (clock : Nat → Time) (wd : Int) (hday : ∀ k, Time.Weekday zone (clock k) = wd)
    (times : List RunTime) (skipMissed : Bool)
    (hnow : Time.representable (clock times.length)) (hr : ∀ t ∈ times, t.inRange) :
    ∀ x ∈ ParseTimes zone clock times skipMissed,
      Time.dayNo zone x = Time.dayNo zone (clock times.length) ∧ Time.Nanosecond x = 0 ∧
      ∃ t ∈ times, wd ∈ t.Weekdays ∧
        Time.Hour zone x = t.Hour ∧ Time.Minute zone x = t.Minute ∧
        Time.Second zone x = t.Second := by
  intro x hx
  obtain ⟨t, ht, hwd, rfl⟩ := mem_ParseTimes zone clock wd hday times skipMissed x hx
  obtain ⟨h1, h2, h3, h4, h5, _⟩ :=
    instantOf_fields zone o hz (clock times.length) hnow t (hr t ht)
  exact ⟨h1, h2, t, ht, hwd, h3, h4, h5⟩

theorem ParseTimes_today_witness :
    utcZone.fixedOffset 0 ∧
      (∀ k : Nat, Time.Weekday utcZone ((fun _ => wed1200) k) = 3) ∧
      Time.representable ((fun _ => wed1200) testSortTimes.length) ∧
      (∀ t ∈ testSortTimes, t.inRange) ∧
      ParseTimes utcZone (fun _ => wed1200) testSortTimes false =
        [wed0030 + 1861 * Second, wed0030 + 77641 * Second, wed0030 + 77761 * Second] ∧
      ∀ x ∈ ParseTimes utcZone (fun _ => wed1200) testSortTimes false,
        Time.dayNo utcZone x = Time.dayNo utcZone ((fun _ => wed1200) testSortTimes.length) ∧
        Time.Nanosecond x = 0 ∧
        ∃ t ∈ testSortTimes, (3 : Int) ∈ t.Weekdays ∧
          Time.Hour utcZone x = t.Hour ∧ Time.Minute utcZone x = t.Minute ∧
          Time.Second utcZone x = t.Second :=
  ⟨⟨fun _ => rfl, by decide, by decide⟩, fun _ => by beta_reduce; decide, by decide,
    by decide, by decide,
    ParseTimes_today utcZone 0 ⟨fun _ => rfl, by decide, by decide⟩ (fun _ => wed1200) 3
      (fun _ => by beta_reduce; decide) testSortTimes false (by decide) (by decide)⟩

/-- C20, as stated, fails: in New York at 01:45 on Sunday 2024-03-10, with
`skipMissed = false`, the specs 00:30 and 02:30 (both in range) are resolved to 05:30 and
06:30 UTC, which are 00:30 and 01:30 on the local clock: the result holds two instants whose
time-of-day is strictly earlier than the current time-of-day. -/
theorem ParseTimes_gap_two_stale :
    (∀ k : Nat, Time.Weekday newYork ((fun _ => sun0145) k) = 0) ∧
      (∀ t ∈ [(⟨[0], 0, 30, 0⟩ : RunTime), ⟨[0], 2, 30, 0⟩], t.inRange) ∧
      ParseTimes newYork (fun _ => sun0145) [⟨[0], 0, 30, 0⟩, ⟨[0], 2, 30, 0⟩] false =
        [1710048600000000000, 1710052200000000000] ∧
      Time.secondOfDay newYork sun0145 = 6300 ∧
      Time.secondOfDay newYork 1710048600000000000 = 1800 ∧
      Time.secondOfDay newYork 1710052200000000000 = 5400 ∧
      ¬ (ParseTimes newYork (fun _ => sun0145) [⟨[0], 0, 30, 0⟩, ⟨[0], 2, 30, 0⟩] false).countP
          (fun x => decide
            (Time.secondOfDay newYork x < Time.secondOfDay newYork ((fun _ => sun0145) 2))) ≤
        1 :=
  ⟨fun _ => by beta_reduce; decide, by decide, by decide, by decide, by decide, by decide,
    by decide⟩

/-- C20, amended: when the local zone keeps one offset at all times (no daylight-saving or
other transition) and the clock reading is one the system clock can deliver, then with
`skipMissed = false` and specs with `Hour` in 0..23 and `Minute`, `Second` in 0..59, the
list `ParseTimes` returns contains at most one instant whose time-of-day is strictly earlier
than the current time-of-day, and when it contains one, that instant is the first element
of the sorted result: the instant at position 0, which a reconciliation pass never drops. -/
theorem ParseTimes_one_stale_first (zone : Zone) (o : Int) (hz : zone.fixedOffset o)
    (clock : Nat → Time) (wd : Int) (hday : ∀ k, Time.Weekday zone (clock k) = wd)
    (times : List RunTime) (hnow : Time.representable (clock times.length))
    (hr : ∀ t ∈ times, t.inRange) :
    (ParseTimes zone clock times false).countP
        (fun x => decide
          (Time.secondOfDay zone x < Time.secondOfDay zone (clock times.length))) ≤ 1 ∧
      ∀ x ∈ ParseTimes zone clock times false,
        Time.secondOfDay zone x < Time.secondOfDay zone (clock times.length) →
          (ParseTimes zone clock times false).head? = some x ∧
          ∀ interval : Duration, ∀ now : Time,
            handling now interval 0 x ≠ Handling.dropped := by
  cases hm : matching wd times with
  | nil =>
    have hnil : ParseTimes zone clock times false = [] := by
      rw [ParseTimes_eq zone clock wd hday, hm]
      rfl
    rw [hnil]
    exact ⟨by simp, fun x hx => absurd hx (List.not_mem_nil x)⟩
  | cons first rest =>
    have hfirst : first.inRange :=
      hr first ((mem_matching wd times first).mp (hm ▸ List.mem_cons_self _ _)).1
    have hrest : ∀ y ∈ (rest.filter (fun t => !past zone t (clock times.length))).map
        (instantOf zone (clock times.length)),
        ∃ t : RunTime, t.inRange ∧ y = instantOf zone (clock times.length) t ∧
          ¬ Time.secondOfDay zone y < Time.secondOfDay zone (clock times.length) := by
      intro y hy
      rw [List.mem_map] at hy
      obtain ⟨t, ht, rfl⟩ := hy
      rw [List.mem_filter] at ht
      have htr : t.inRange :=
        hr t ((mem_matching wd times t).mp (hm ▸ List.mem_cons_of_mem _ ht.1)).1
      refine ⟨t, htr, rfl, ?_⟩
      rw [(instantOf_fields zone o hz _ hnow t htr).2.2.2.2.2,
        ← timeOfDayBefore_iff_seconds zone t _ htr, ← past_iff]
      simpa using ht.2
    have heq := ParseTimes_keep_eq zone clock wd hday times first rest hm
    constructor
    · rw [heq, (sortSlice_perm _).countP_eq, List.countP_cons]
      have hzero : List.countP
          (fun x => decide
            (Time.secondOfDay zone x < Time.secondOfDay zone (clock times.length)))
          ((rest.filter (fun t => !past zone t (clock times.length))).map
            (instantOf zone (clock times.length))) = 0 := by
        rw [List.countP_eq_zero]
        intro y hy
        simpa using (hrest y hy).choose_spec.2.2
      rw [hzero]
      split_ifs <;> simp
    · intro x hx hstale
      refine ⟨?_, fun interval now => handling_zero_ne_dropped now interval x⟩
      have hxl := hx
      rw [heq, mem_sortSlice, List.mem_cons] at hxl
      have hxf : x = instantOf zone (clock times.length) first := by
        rcases hxl with h | h
        · exact h
        · exact absurd hstale (hrest x h).choose_spec.2.2
      have hsorted := sorted_of_ParseTimes zone clock times false
      cases hres : ParseTimes zone clock times false with
      | nil => rw [hres] at hx; exact absurd hx (List.not_mem_nil x)
      | cons y ys =>
        rw [hres] at hx hsorted
        have hyx : y ≤ x := by
          rw [List.mem_cons] at hx
          rcases hx with h | h
          · exact le_of_eq h.symm
          · exact List.rel_of_sorted_cons hsorted x h
        have hy : y ∈ ParseTimes zone clock times false := by
          rw [hres]
          exact List.mem_cons_self _ _
        rw [heq, mem_sortSlice, List.mem_cons] at hy
        rcases hy with h | h
        · simp only [List.head?_cons, Option.some.injEq]
          rw [h, hxf]
        · obtain ⟨t, htr, hyt, hns⟩ := hrest y h
          have hlt : x < y := by
            rw [hxf, hyt]
            apply instantOf_lt zone o hz _ hnow first t hfirst htr
            rw [← hxf, ← hyt]
            exact lt_of_lt_of_le hstale (not_lt.mp hns)
          exact absurd hyx (not_le.mpr hlt)

theorem ParseTimes_one_stale_first_witness :
    utcZone.fixedOffset 0 ∧
      (∀ k : Nat, Time.Weekday utcZone ((fun _ => wed1200) k) = 3) ∧
      Time.representable ((fun _ => wed1200) testSortTimes.length) ∧
      (∀ t ∈ testSortTimes, t.inRange) ∧
      (ParseTimes utcZone (fun _ => wed1200) testSortTimes false).head? =
        some (instantOf utcZone wed1200 ⟨[3], 1, 1, 1⟩) ∧
      Time.secondOfDay utcZone (instantOf utcZone wed1200 ⟨[3], 1, 1, 1⟩) <
        Time.secondOfDay utcZone wed1200 ∧
      (ParseTimes utcZone (fun _ => wed1200) testSortTimes false).countP
        (fun x => decide
          (Time.secondOfDay utcZone x <
            Time.secondOfDay utcZone ((fun _ => wed1200) testSortTimes.length))) ≤ 1 :=
  ⟨⟨fun _ => rfl, by decide, by decide⟩, fun _ => by beta_reduce; decide, by decide,
    by decide, by decide, by decide,
    (ParseTimes_one_stale_first utcZone 0 ⟨fun _ => rfl, by decide, by decide⟩
      (fun _ => wed1200) 3 (fun _ => by beta_reduce; decide) testSortTimes (by decide)
      (by decide)).1⟩

/-! ## Stale instants and termination: lemmas and claims -/

theorem stale_armed_is_first (now : Time) (interval : Duration) (fn : Func)
    (times : List Time) (i : Nat) (d : Duration) (f : Func) (t : Time)
    (h : Event.afterFunc d f t ∈ armedFrom now interval fn i times) (hd : d < 0) :
    i = 0 ∧ times.head? = some t := by
  induction times generalizing i with
  | nil => simp [armedFrom] at h
  | cons a ts ih =>
    rw [armedFrom_cons, List.mem_append] at h
    rcases h with h | h
    · simp only [handling] at h
      split_ifs at h with h1 h2
      · simp at h
      · simp only [List.mem_cons, Event.afterFunc.injEq, List.mem_singleton, false_or] at h
        rcases h with h | ⟨hda, _, hta⟩ | h
        · exact Event.noConfusion h
        · rw [hda] at hd
          have hi : i = 0 := by
            by_contra hne
            exact h1 ⟨hne, hd⟩
          exact ⟨hi, by rw [hta]; rfl⟩
        · exact absurd h (List.not_mem_nil _)
      · simp at h
    · exact absurd (ih (i + 1) h).1 (Nat.succ_ne_zero i)

theorem staleCalls_append (a b : List Event) :
    staleCalls (a ++ b) = staleCalls a + staleCalls b := by
  induction a with
  | nil => simp [staleCalls]
  | cons e rest ih => cases e <;> simp [staleCalls, ih, add_assoc]

theorem staleCalls_succ (now : Time) (interval : Duration) (fn : Func) (times : List Time)
    (i : Nat) : staleCalls (armedFrom now interval fn (i + 1) times) = 0 := by
  induction times generalizing i with
  | nil => rfl
  | cons a ts ih =>
    rw [armedFrom_cons, staleCalls_append, ih (i + 1)]
    simp only [handling]
    split_ifs with h1 h2
    · rfl
    · have hnn : ¬ Time.Sub a now < 0 := fun hlt => h1 ⟨Nat.succ_ne_zero i, hlt⟩
      simp [staleCalls, hnn]
    · rfl

theorem staleCalls_le_one (now : Time) (interval : Duration) (fn : Func)
    (times : List Time) : staleCalls (armedFrom now interval fn 0 times) ≤ 1 := by
  cases times with
  | nil => exact Nat.zero_le 1
  | cons a ts =>
    rw [armedFrom_cons, staleCalls_append, staleCalls_succ]
    cases handling now interval 0 a with
    | dropped => exact Nat.zero_le 1
    | armed d =>
      simp only [staleCalls]
      split_ifs <;> simp
    | kept => exact Nat.zero_le 1

/-- C18: a reconciliation pass never piles up stale occurrences.  For every job, at most one
of the timers a pass arms for it has an instant that is already past (a negative delay), and
such a timer is for the instant at position 0 of the pending list; an instant at any other
position that is already past is dropped.  A job pending at 09:00:00 and 09:00:10 that is
reconciled at 09:05:00 with a 10 minute window has 09:00:00 armed once, five minutes late,
09:00:10 dropped, and is removed from the active set. -/
theorem pass_no_stale_pileup (now : Time) (interval : Duration) (fn : Func)
    (times : List Time) :
    staleCalls (timesLoop now interval fn 0 times).2 ≤ 1 ∧
      (∀ (d : Duration) (f : Func) (t : Time),
        Event.afterFunc d f t ∈ (timesLoop now interval fn 0 times).2 → d < 0 →
          times.head? = some t) ∧
      (∀ (i : Nat) (t : Time), i ≠ 0 → t < now →
        handling now interval i t = Handling.dropped) ∧
      (⟨false, [], [jobAPending], 0⟩ : Schedule).pass wed0905 (Minute * 10) =
        (⟨false, [], [], 1⟩,
          [Event.wgAdd 1, Event.afterFunc (-(Minute * 5)) jobAPending wed0900]) ∧
      droppedFrom wed0905 (Minute * 10) 0 jobAPending.timesParsed = [wed0900 + Second * 10] := by
  rw [timesLoop_eq]
  refine ⟨staleCalls_le_one now interval fn times, ?_, ?_, by decide, by decide⟩
  · intro d f t h hd
    exact (stale_armed_is_first now interval fn times 0 d f t h hd).2
  · intro i t hi ht
    simp only [handling]
    rw [if_pos ⟨hi, (Sub_neg_iff t now).mpr ht⟩]

theorem pass_no_stale_pileup_witness :
    Event.afterFunc (-(Minute * 5)) jobAPending wed0900 ∈
        (timesLoop wed0905 (Minute * 10) jobAPending 0 jobAPending.timesParsed).2 ∧
      -(Minute * 5) < 0 ∧
      jobAPending.timesParsed.head? = some wed0900 ∧
      staleCalls (timesLoop wed0905 (Minute * 10) jobAPending 0 jobAPending.timesParsed).2 = 1 :=
  ⟨by decide, by decide,
    (pass_no_stale_pileup wed0905 (Minute * 10) jobAPending jobAPending.timesParsed).2.1
      (-(Minute * 5)) jobAPending wed0900 (by decide) (by decide),
    by decide⟩


theorem Sub_le_of_le (t u : Time) (interval : Duration) (hpos : 0 < interval)
    (h : t - u ≤ interval) : Time.Sub t u ≤ interval := by
  unfold Time.Sub minDuration maxDuration
  unfold Time Duration at *
  split_ifs <;> omega

/-- Once a pass runs at a tick that has every pending instant within its window, the loop
has stopped, with an empty active set. -/
theorem reconcileLoop_stops (interval : Duration) (hpos : 0 < interval) (ticks : List Time) :
    ∀ schedule : Schedule,
      (∃ tk ∈ ticks, ∀ f ∈ schedule.functions, ∀ t ∈ f.timesParsed, t - tk ≤ interval) →
      ∃ r, reconcileLoop interval ticks schedule = some r ∧ r.1.functions = [] := by
  induction ticks with
  | nil =>
    intro schedule h
    obtain ⟨tk, htk, _⟩ := h
    exact absurd htk (List.not_mem_nil tk)
  | cons now rest ih =>
    intro schedule h
    obtain ⟨tk, htk, hall⟩ := h
    by_cases hemp : (schedule.pass now interval).1.functions.length = 0
    · refine ⟨schedule.pass now interval, ?_, List.length_eq_zero.mp hemp⟩
      rw [reconcileLoop, if_neg (not_le.mpr hpos), if_pos hemp]
    · have hkept : ∀ f1 ∈ (schedule.pass now interval).1.functions, ∀ t ∈ f1.timesParsed,
          interval < Time.Sub t now ∧ ∃ f ∈ schedule.functions, t ∈ f.timesParsed :=
        fun f1 hf1 => (functionsLoop_pending now interval schedule.functions f1 hf1).2
      rw [List.mem_cons] at htk
      rcases htk with htk | htk
      · exfalso
        apply hemp
        rw [List.length_eq_zero, List.eq_nil_iff_forall_not_mem]
        intro f1 hf1
        obtain ⟨hne, _⟩ := functionsLoop_pending now interval schedule.functions f1 hf1
        obtain ⟨t, ht⟩ := List.exists_mem_of_ne_nil _ hne
        obtain ⟨hlt, f, hf, htf⟩ := hkept f1 hf1 t ht
        have hle := Sub_le_of_le t now interval hpos (htk ▸ hall f hf t htf)
        exact absurd hle (not_le.mpr hlt)
      · obtain ⟨r, hr, hfin⟩ := ih (schedule.pass now interval).1 ⟨tk, htk, by
          intro f1 hf1 t ht
          obtain ⟨_, f, hf, htf⟩ := hkept f1 hf1 t ht
          exact hall f hf t htf⟩
        refine ⟨(r.1, (schedule.pass now interval).2 ++ r.2), ?_, hfin⟩
        rw [reconcileLoop, if_neg (not_le.mpr hpos), if_neg hemp, hr]

theorem exists_upper_bound (l : List Time) : ∃ B : Time, ∀ t ∈ l, t ≤ B := by
  induction l with
  | nil => exact ⟨0, fun t ht => absurd ht (List.not_mem_nil t)⟩
  | cons a rest ih =>
    obtain ⟨B, hB⟩ := ih
    refine ⟨max a B, fun t ht => ?_⟩
    rw [List.mem_cons] at ht
    rcases ht with ht | ht
    · rw [ht]
      exact le_max_left a B
    · exact le_trans (hB t ht) (le_max_right a B)

theorem exists_pending_bound (fns : List Func) :
    ∃ B : Time, ∀ f ∈ fns, ∀ t ∈ f.timesParsed, t ≤ B := by
  obtain ⟨B, hB⟩ := exists_upper_bound (fns.flatMap (fun f => f.timesParsed))
  exact ⟨B, fun f hf t ht => hB t (List.mem_flatMap.mpr ⟨f, hf, ht⟩)⟩

theorem tick_growth (tick : Nat → Time) (step : Duration) (hstep : 0 < step)
    (hadv : ∀ k, tick k + step ≤ tick (k + 1)) (k : Nat) : tick 0 + (k : Int) ≤ tick k := by
  induction k with
  | zero => simp
  | succ n ih =>
    have h := hadv n
    push_cast
    unfold Time Duration at *
    omega

/-- C19: the reconciliation loop stops exactly when the active set is empty after a pass:
then it returns without looking at later ticks, and otherwise it goes on with the next
tick.  And it does stop: for every schedule and every positive interval, when each pass runs
at least a fixed positive `step` after the one before, there is a number `n` of passes
after which the loop has stopped with an empty active set. -/
theorem RunHandleSleeps_stops (schedule : Schedule) (interval : Duration)
    (hpos : 0 < interval) (tick : Nat → Time) (step : Duration) (hstep : 0 < step)
    (hadv : ∀ k, tick k + step ≤ tick (k + 1)) :
    (∀ (now : Time) (rest : List Time) (s : Schedule),
        (s.pass now interval).1.functions = [] →
          reconcileLoop interval (now :: rest) s = some (s.pass now interval)) ∧
      (∀ (now : Time) (rest : List Time) (s : Schedule),
        (s.pass now interval).1.functions ≠ [] →
          reconcileLoop interval (now :: rest) s =
            (reconcileLoop interval rest (s.pass now interval).1).map
              (fun r => (r.1, (s.pass now interval).2 ++ r.2))) ∧
      ∃ n r, schedule.RunHandleSleeps ((List.range n).map tick) interval = some r ∧
        r.1.functions = [] := by
  refine ⟨?_, ?_, ?_⟩
  · intro now rest s h
    rw [reconcileLoop, if_neg (not_le.mpr hpos), if_pos (by rw [h]; rfl)]
  · intro now rest s h
    have hl : ¬ (s.pass now interval).1.functions.length = 0 := by
      rw [List.length_eq_zero]
      exact h
    rw [reconcileLoop, if_neg (not_le.mpr hpos), if_neg hl]
    cases reconcileLoop interval rest (s.pass now interval).1 <;> rfl
  · obtain ⟨B, hB⟩ := exists_pending_bound schedule.functions
    have hgrow := tick_growth tick step hstep hadv (B - interval - tick 0).toNat
    have hnat : B - interval - tick 0 ≤ ((B - interval - tick 0).toNat : Int) :=
      Int.self_le_toNat _
    have hlate : ∀ f ∈ schedule.functions, ∀ t ∈ f.timesParsed,
        t - tick (B - interval - tick 0).toNat ≤ interval := by
      intro f hf t ht
      have := hB f hf t ht
      unfold Time Duration at *
      omega
    obtain ⟨r, hr, hfin⟩ := reconcileLoop_stops interval hpos
      ((List.range ((B - interval - tick 0).toNat + 1)).map tick) schedule
      ⟨tick (B - interval - tick 0).toNat,
        List.mem_map.mpr ⟨_, List.mem_range.mpr (Nat.lt_succ_self _), rfl⟩, hlate⟩
    refine ⟨(B - interval - tick 0).toNat + 1, r, ?_, hfin⟩
    rw [Schedule.RunHandleSleeps, if_neg (ne_of_gt hpos)]
    exact hr

theorem RunHandleSleeps_stops_witness :
    (0 : Duration) < Minute * 10 ∧
      (∀ k, tenMinuteTicks k + Minute * 10 ≤ tenMinuteTicks (k + 1)) ∧
      (List.range 2).map tenMinuteTicks = [wed0905, wed0905 + Minute * 10] ∧
      (∃ r, (⟨false, [], [jobB, jobD], 0⟩ : Schedule).RunHandleSleeps
          ((List.range 2).map tenMinuteTicks) (Minute * 10) = some r ∧ r.1.functions = []) ∧
      ∃ n r, (⟨false, [], [jobB, jobD], 0⟩ : Schedule).RunHandleSleeps
          ((List.range n).map tenMinuteTicks) (Minute * 10) = some r ∧ r.1.functions = [] :=
  have hadv : ∀ k, tenMinuteTicks k + Minute * 10 ≤ tenMinuteTicks (k + 1) := by
    intro k
    unfold tenMinuteTicks
    push_cast
    rw [mul_add, mul_one, add_assoc]
  ⟨by decide, hadv, by decide, ⟨_, rfl, by decide⟩,
    (RunHandleSleeps_stops ⟨false, [], [jobB, jobD], 0⟩ (Minute * 10) (by decide)
      tenMinuteTicks (Minute * 10) (by decide) hadv).2.2⟩


end Scheduler
